import Mathlib

/-!
Verification of the storage core of `dollar_store_git` (`src/libwyag/`).

Byte strings are modelled as `List Nat` (each element a byte value; for
`str` values they are the UTF-8 code units, whose lexicographic order
agrees with Python's code-point string order).  Python's `bytes.find`
(which returns `-1` on failure) and slice semantics (negative indices
count from the end, out-of-range indices clamp) are modelled explicitly
by `pyFind` and `pySlice` below, since `objects.py` relies on them.
-/

namespace DollarGit

/-- First index `i` (counting from 0) with `l[i] = b`, if any. -/
def findFrom : List Nat → Nat → Option Nat
  | [], _ => none
  | x :: xs, b => if x = b then some 0 else (findFrom xs b).map (· + 1)

/-- Python `raw.find(bytes([b]), start)`: `-1` when absent; a negative
`start` counts from the end of the string and clamps at 0. -/
def pyFind (raw : List Nat) (b : Nat) (start : Int) : Int :=
  let s : Nat := if start < 0 then (raw.length + start).toNat else start.toNat
  match findFrom (raw.drop s) b with
  | some i => ((s + i : Nat) : Int)
  | none => -1

/-- Normalization of one Python slice endpoint against length `n`. -/
def sliceIdx (n : Nat) (i : Int) : Nat :=
  if i < 0 then (n + i).toNat else min i.toNat n

/-- Python slice `raw[a:b]`: negative indices count from the end, and
both endpoints clamp into `[0, len]`. -/
def pySlice (raw : List Nat) (a b : Int) : List Nat :=
  (raw.drop (sliceIdx raw.length a)).take
    (sliceIdx raw.length b - sliceIdx raw.length a)

/-- Python `int.from_bytes(l, "big")`. -/
def fromBytesBE (l : List Nat) : Nat :=
  l.foldl (fun a c => a * 256 + c) 0

/-- Python `n.to_bytes(k, "big")` (big-endian, most significant first;
high bits beyond `k` bytes are dropped, where CPython would raise). -/
def toBytesBE (n : Nat) : Nat → List Nat
  | 0 => []
  | k + 1 => toBytesBE (n / 256) k ++ [n % 256]

/-- Fuel-indexed digit extraction (structural, so that the kernel can
evaluate it). -/
def natDecDigitsGo : Nat → Nat → List Nat
  | 0, _ => []
  | f + 1, n => if n < 10 then [48 + n] else natDecDigitsGo f (n / 10) ++ [48 + n % 10]

/-- Decimal digit character codes of `n`, as produced by Python `str(n)`
for a natural number. -/
def natDecDigits (n : Nat) : List Nat :=
  natDecDigitsGo (n + 1) n

theorem natDecDigitsGo_congr : ∀ (f n : Nat), n < f →
    natDecDigitsGo f n = natDecDigits n := by
  intro f
  induction f using Nat.strong_induction_on with
  | _ f ih =>
    intro n hf
    obtain ⟨g, rfl⟩ : ∃ g, f = g + 1 := ⟨f - 1, by omega⟩
    by_cases h : n < 10
    · rw [natDecDigitsGo, if_pos h, natDecDigits, natDecDigitsGo, if_pos h]
    · have hdiv : n / 10 < n := Nat.div_lt_self (by omega) (by omega)
      rw [natDecDigitsGo, if_neg h, natDecDigits, natDecDigitsGo, if_neg h]
      rw [ih g (by omega) (n / 10) (by omega), ih n (by omega) (n / 10) (by omega)]

theorem natDecDigits_unfold (n : Nat) :
    natDecDigits n = if n < 10 then [48 + n] else natDecDigits (n / 10) ++ [48 + n % 10] := by
  by_cases h : n < 10
  · rw [natDecDigits, natDecDigitsGo, if_pos h, if_pos h]
  · have hdiv : n / 10 < n := Nat.div_lt_self (by omega) (by omega)
    rw [natDecDigits, natDecDigitsGo, if_neg h, if_neg h,
      natDecDigitsGo_congr n (n / 10) (by omega)]

/-- Python `int(s)` restricted to plain decimal digit strings (the only
form a well-formed object header carries): `none` when `s` is empty or
contains a non-digit, otherwise the denoted value. -/
def parseDec (s : List Nat) : Option Nat :=
  if s ≠ [] ∧ s.all (fun c => 48 ≤ c ∧ c ≤ 57) then
    some (s.foldl (fun a c => a * 10 + (c - 48)) 0)
  else none

/-- Fuel-indexed replacement loop (structural, kernel-evaluable). -/
def pyReplaceGo (old new : List Nat) : Nat → List Nat → List Nat
  | 0, _ => []
  | _, [] => []
  | f + 1, x :: s =>
    if old ≠ [] ∧ (x :: s).take old.length = old then
      new ++ pyReplaceGo old new f ((x :: s).drop old.length)
    else
      x :: pyReplaceGo old new f s

/-- Python `s.replace(old, new)`: left-to-right, non-overlapping.
(The callers in `objects.py` only use non-empty `old`.) -/
def pyReplace (l old new : List Nat) : List Nat :=
  pyReplaceGo old new l.length l

theorem pyReplaceGo_congr (old new : List Nat) : ∀ (f : Nat) (l : List Nat),
    l.length ≤ f → pyReplaceGo old new f l = pyReplace l old new := by
  intro f
  induction f using Nat.strong_induction_on with
  | _ f ih =>
    intro l hf
    match f, l with
    | 0, [] => rfl
    | g + 1, [] => rfl
    | g + 1, x :: s =>
      rw [pyReplace]
      by_cases hc : old ≠ [] ∧ (x :: s).take old.length = old
      · rw [pyReplaceGo, if_pos hc]
        rw [show (x :: s).length = s.length + 1 from rfl, pyReplaceGo, if_pos hc]
        have hlen : ((x :: s).drop old.length).length ≤ g := by
          have : old.length ≠ 0 := fun hh => hc.1 (List.length_eq_zero.mp hh)
          simp only [List.length_drop, List.length_cons] at *
          omega
        have hlen2 : ((x :: s).drop old.length).length ≤ s.length := by
          have : old.length ≠ 0 := fun hh => hc.1 (List.length_eq_zero.mp hh)
          simp only [List.length_drop, List.length_cons]
          omega
        rw [ih g (by omega) _ hlen, ih s.length (by simp at hf; omega) _ hlen2]
      · rw [pyReplaceGo, if_neg hc]
        rw [show (x :: s).length = s.length + 1 from rfl, pyReplaceGo, if_neg hc]
        rw [ih g (by omega) s (by simp at hf; omega), ih s.length (by simp at hf; omega) s (by omega)]

theorem pyReplace_unfold (x : Nat) (s old new : List Nat) :
    pyReplace (x :: s) old new
      = if old ≠ [] ∧ (x :: s).take old.length = old then
          new ++ pyReplace ((x :: s).drop old.length) old new
        else
          x :: pyReplace s old new := by
  rw [pyReplace, show (x :: s).length = s.length + 1 from rfl, pyReplaceGo]
  by_cases hc : old ≠ [] ∧ (x :: s).take old.length = old
  · rw [if_pos hc, if_pos hc]
    congr 1
    apply pyReplaceGo_congr
    by_cases h0 : old.length = 0
    · exact absurd (List.length_eq_zero.mp h0) hc.1
    · simp only [List.length_drop, List.length_cons]
      omega
  · rw [if_neg hc, if_neg hc]
    rfl

/-! ### Basic lemmas about the Python primitives -/

theorem findFrom_eq_some {xs ys : List Nat} {b : Nat} (hb : b ∉ xs) :
    findFrom (xs ++ b :: ys) b = some xs.length := by
  induction xs with
  | nil => simp [findFrom]
  | cons x xs ih =>
    have hx : x ≠ b := fun h => hb (h ▸ List.mem_cons_self x xs)
    have hb' : b ∉ xs := fun h => hb (List.mem_cons_of_mem x h)
    simp [findFrom, hx, ih hb']

theorem findFrom_eq_none {xs : List Nat} {b : Nat} (hb : b ∉ xs) :
    findFrom xs b = none := by
  induction xs with
  | nil => rfl
  | cons x xs ih =>
    have hx : x ≠ b := fun h => hb (h ▸ List.mem_cons_self x xs)
    have hb' : b ∉ xs := fun h => hb (List.mem_cons_of_mem x h)
    simp [findFrom, hx, ih hb']

theorem pyFind_eq {r x y : List Nat} {b : Nat} (sn : Nat)
    (h : r.drop sn = x ++ b :: y) (hb : b ∉ x) :
    pyFind r b sn = ((sn + x.length : Nat) : Int) := by
  have hn : ¬ ((sn : Int) < 0) := by omega
  simp [pyFind, hn, h, findFrom_eq_some hb]

theorem pyFind_eq_neg {raw : List Nat} {b : Nat} (sn : Nat)
    (hb : b ∉ raw.drop sn) :
    pyFind raw b sn = -1 := by
  have hn : ¬ ((sn : Int) < 0) := by omega
  simp [pyFind, hn, findFrom_eq_none hb]

theorem sliceIdx_ofNat (n a : Nat) : sliceIdx n (a : Int) = min a n := by
  have hn : ¬ ((a : Int) < 0) := by omega
  simp [sliceIdx, hn]

theorem pySlice_of_drop {r l t : List Nat} (a : Nat)
    (h : r.drop a = l ++ t) :
    pySlice r (a : Int) ((a + l.length : Nat) : Int) = l := by
  have hlen : r.length - a = l.length + t.length := by
    have := congrArg List.length h
    simpa using this
  by_cases hc : a ≤ r.length
  · have hab : a + l.length ≤ r.length := by omega
    rw [pySlice, sliceIdx_ofNat, sliceIdx_ofNat,
      Nat.min_eq_left hc, Nat.min_eq_left hab, Nat.add_sub_cancel_left, h]
    rw [List.take_append_of_le_length (Nat.le_refl _)]
    simp
  · have hd : r.drop a = [] := List.drop_eq_nil_of_le (by omega)
    rw [hd] at h
    have hl : l = [] := by
      cases l with
      | nil => rfl
      | cons c cs => simp at h
    subst hl
    rw [pySlice, sliceIdx_ofNat, sliceIdx_ofNat]
    simp

theorem pySlice_to_end {raw : List Nat} (a : Nat) :
    pySlice raw (a : Int) (raw.length : Int) = raw.drop a := by
  rw [pySlice, sliceIdx_ofNat, sliceIdx_ofNat, Nat.min_self]
  by_cases hc : a ≤ raw.length
  · rw [Nat.min_eq_left hc]
    apply List.take_of_length_le
    simp
  · rw [Nat.min_eq_right (by omega)]
    rw [List.drop_eq_nil_of_le (Nat.le_refl _), List.drop_eq_nil_of_le (by omega)]
    simp

theorem drop_add_of_drop_eq {r x t : List Nat} {s : Nat}
    (h : r.drop s = x ++ t) : r.drop (s + x.length) = t := by
  rw [← List.drop_drop, h, List.drop_left]

theorem fromBytesBE_append_one (xs : List Nat) (c : Nat) :
    fromBytesBE (xs ++ [c]) = fromBytesBE xs * 256 + c := by
  simp [fromBytesBE, List.foldl_append]

theorem toBytesBE_length (n k : Nat) : (toBytesBE n k).length = k := by
  induction k generalizing n with
  | zero => rfl
  | succ k ih => simp [toBytesBE, ih]

theorem fromBytesBE_toBytesBE (n k : Nat) (h : n < 256 ^ k) :
    fromBytesBE (toBytesBE n k) = n := by
  induction k generalizing n with
  | zero =>
    have hn : n = 0 := by
      have : (256 : Nat) ^ 0 = 1 := pow_zero 256
      omega
    subst hn
    rfl
  | succ k ih =>
    have hdiv : n / 256 < 256 ^ k := by
      rw [Nat.div_lt_iff_lt_mul (by omega)]
      calc n < 256 ^ (k + 1) := h
        _ = 256 ^ k * 256 := by ring
    rw [toBytesBE, fromBytesBE_append_one, ih _ hdiv]
    omega

theorem natDecDigits_foldl (m : Nat) : ∀ acc : Nat,
    (natDecDigits m).foldl (fun a c => a * 10 + (c - 48)) acc
      = acc * 10 ^ (natDecDigits m).length + m := by
  induction m using Nat.strong_induction_on with
  | _ m ih =>
    intro acc
    by_cases h : m < 10
    · rw [natDecDigits_unfold, if_pos h]
      simp only [List.foldl_cons, List.foldl_nil, List.length_cons,
        List.length_nil, pow_one]
      omega
    · rw [natDecDigits_unfold, if_neg h, List.foldl_append,
        ih (m / 10) (Nat.div_lt_self (by omega) (by omega)) acc]
      simp only [List.foldl_cons, List.foldl_nil, List.length_append,
        List.length_cons, List.length_nil, Nat.zero_add]
      have h2 : 48 + m % 10 - 48 = m % 10 := by omega
      rw [h2, pow_succ]
      calc (acc * 10 ^ (natDecDigits (m / 10)).length + m / 10) * 10 + m % 10
          = acc * (10 ^ (natDecDigits (m / 10)).length * 10)
            + (10 * (m / 10) + m % 10) := by ring
        _ = acc * (10 ^ (natDecDigits (m / 10)).length * 10) + m := by
            rw [Nat.div_add_mod]

theorem natDecDigits_all_digits (m : Nat) :
    ∀ c ∈ natDecDigits m, 48 ≤ c ∧ c ≤ 57 := by
  induction m using Nat.strong_induction_on with
  | _ m ih =>
    by_cases h : m < 10
    · rw [natDecDigits_unfold, if_pos h]
      intro c hc
      simp at hc
      omega
    · rw [natDecDigits_unfold, if_neg h]
      intro c hc
      rcases List.mem_append.mp hc with h1 | h2
      · exact ih (m / 10) (Nat.div_lt_self (by omega) (by omega)) c h1
      · simp at h2
        have : m % 10 < 10 := Nat.mod_lt _ (by omega)
        omega

theorem natDecDigits_ne_nil (m : Nat) : natDecDigits m ≠ [] := by
  by_cases h : m < 10
  · rw [natDecDigits_unfold, if_pos h]
    simp
  · rw [natDecDigits_unfold, if_neg h]
    simp

theorem parseDec_natDecDigits (n : Nat) : parseDec (natDecDigits n) = some n := by
  rw [parseDec, if_pos]
  · rw [natDecDigits_foldl n 0]
    simp
  · refine ⟨natDecDigits_ne_nil n, ?_⟩
    rw [List.all_eq_true]
    intro c hc
    exact decide_eq_true (natDecDigits_all_digits n c hc)

/-! ### Tree objects (`objects.py`, `GitTreeLeaf` / `tree_parse_one` /
`tree_parse` / `tree_serialize`)

`mode` is kept as its byte string; `path` as its UTF-8 bytes (Python
stores the decoded `str`; UTF-8 decoding is injective and
order-preserving, so the byte list is a faithful model); `sha` as the
natural number denoted by the 40-hex string (the formatting
`f"\x7bsha_int:040x\x7d"` / `int(sha, 16)` pair is a bijection below
`2^160`). -/

structure GitTreeLeaf where
  mode : List Nat
  path : List Nat
  sha : Nat
  deriving DecidableEq, Repr

/-- `tree_parse_one` (objects.py:285-306).  The dead
`if len(mode) == 5: pass` in the source performs no normalization. -/
def tree_parse_one (raw : List Nat) (start : Int) : Int × GitTreeLeaf :=
  let x := pyFind raw 32 start
  let mode := pySlice raw start x
  let y := pyFind raw 0 x
  let path := pySlice raw (x + 1) y
  let shaRaw := pySlice raw (y + 1) (y + 21)
  (y + 21, ⟨mode, path, fromBytesBE shaRaw⟩)

/-- The `while pos < maxlen` loop of `tree_parse` (objects.py:309-317),
with explicit fuel; `none` models non-termination of the Python loop
(positions repeat), which cannot happen within `len + 2` iterations of
any terminating run, since the next position is a function of the
current one and any repeat loops forever. -/
def treeParseGo (raw : List Nat) : Nat → Int → List GitTreeLeaf → Option (List GitTreeLeaf)
  | 0, _, _ => none
  | fuel + 1, pos, acc =>
    if pos < (raw.length : Int) then
      let r := tree_parse_one raw pos
      treeParseGo raw fuel r.1 (acc ++ [r.2])
    else some acc

/-- `tree_parse` (objects.py:309-317). -/
def tree_parse (raw : List Nat) : Option (List GitTreeLeaf) :=
  treeParseGo raw (raw.length + 2) 0 []

/-- Lexicographic (byte/code-point) order used by Python string
comparison in `list.sort(key=...)`. -/
def byteLe : List Nat → List Nat → Bool
  | [], _ => true
  | _ :: _, [] => false
  | x :: xs, y :: ys => if x < y then true else if x = y then byteLe xs ys else false

/-- The `sort_key` closure of `tree_serialize` (objects.py:324-327):
entries whose mode starts with `b"04"` get a trailing slash. -/
def sort_key (leaf : GitTreeLeaf) : List Nat :=
  if leaf.mode.take 2 = [48, 52] then leaf.path ++ [47] else leaf.path

/-- Comparison on leaves induced by `sort_key`; `list.sort` is a stable
sort by this key, which `List.mergeSort` (also stable) reproduces. -/
def keyLeB (a b : GitTreeLeaf) : Bool := byteLe (sort_key a) (sort_key b)

/-- The byte encoding of one leaf inside `tree_serialize`'s loop body
(objects.py:332-338). -/
def encLeaf (leaf : GitTreeLeaf) : List Nat :=
  leaf.mode ++ [32] ++ leaf.path ++ [0] ++ toBytesBE leaf.sha 20

/-- `tree_serialize` (objects.py:320-339): sort by `sort_key`, then
concatenate the per-leaf encodings. -/
def tree_serialize (items : List GitTreeLeaf) : List Nat :=
  (items.mergeSort keyLeB).foldl (fun acc leaf => acc ++ encLeaf leaf) []

/-- Well-formedness making a leaf encoding parseable back: no space in
the mode, no NUL in the path, and a 20-byte id. -/
def WfLeaf (leaf : GitTreeLeaf) : Prop :=
  32 ∉ leaf.mode ∧ 0 ∉ leaf.path ∧ leaf.sha < 256 ^ 20

instance : DecidablePred WfLeaf := fun leaf => by
  unfold WfLeaf
  infer_instance

theorem encLeaf_length (leaf : GitTreeLeaf) :
    (encLeaf leaf).length = leaf.mode.length + leaf.path.length + 22 := by
  simp [encLeaf, toBytesBE_length]
  omega

theorem foldl_append_encLeaf (L : List GitTreeLeaf) (acc : List Nat) :
    L.foldl (fun a x => a ++ encLeaf x) acc = acc ++ L.flatMap encLeaf := by
  induction L generalizing acc with
  | nil => simp
  | cons x xs ih => simp [ih, List.flatMap_cons]

theorem tree_serialize_eq_flatMap (items : List GitTreeLeaf) :
    tree_serialize items = (items.mergeSort keyLeB).flatMap encLeaf := by
  rw [tree_serialize, foldl_append_encLeaf]
  simp

theorem tree_parse_one_spec {raw rest : List Nat} (sn : Nat) (leaf : GitTreeLeaf)
    (hdrop : raw.drop sn = encLeaf leaf ++ rest) (hwf : WfLeaf leaf) :
    tree_parse_one raw (sn : Int)
      = (((sn + (encLeaf leaf).length : Nat) : Int), leaf) := by
  obtain ⟨hm, hp, hs⟩ := hwf
  have h20 : (toBytesBE leaf.sha 20).length = 20 := toBytesBE_length _ _
  have hd1 : raw.drop sn
      = leaf.mode ++ 32 :: (leaf.path ++ 0 :: (toBytesBE leaf.sha 20 ++ rest)) := by
    rw [hdrop]
    simp [encLeaf]
  have hx : pyFind raw 32 (sn : Int) = ((sn + leaf.mode.length : Nat) : Int) :=
    pyFind_eq sn hd1 hm
  have hd2 : raw.drop (sn + leaf.mode.length)
      = (32 :: leaf.path) ++ 0 :: (toBytesBE leaf.sha 20 ++ rest) := by
    have := drop_add_of_drop_eq (x := leaf.mode) (by simpa using hd1)
    simpa using this
  have hmode : pySlice raw (sn : Int) ((sn + leaf.mode.length : Nat) : Int)
      = leaf.mode := pySlice_of_drop sn (by rw [hd1])
  have hy : pyFind raw 0 ((sn + leaf.mode.length : Nat) : Int)
      = ((sn + leaf.mode.length + (leaf.path.length + 1) : Nat) : Int) := by
    have h0 : (0 : Nat) ∉ 32 :: leaf.path := by
      intro hmem
      rcases List.mem_cons.mp hmem with h | h
      · omega
      · exact hp h
    have := pyFind_eq (sn + leaf.mode.length) hd2 h0
    simpa using this
  have hd3 : raw.drop (sn + leaf.mode.length + 1)
      = leaf.path ++ 0 :: (toBytesBE leaf.sha 20 ++ rest) := by
    have := drop_add_of_drop_eq (x := [32])
      (show raw.drop (sn + leaf.mode.length)
        = [32] ++ (leaf.path ++ 0 :: (toBytesBE leaf.sha 20 ++ rest)) by simpa using hd2)
    simpa using this
  have hpath : pySlice raw ((sn + leaf.mode.length + 1 : Nat) : Int)
      ((sn + leaf.mode.length + 1 + leaf.path.length : Nat) : Int) = leaf.path :=
    pySlice_of_drop _ (by rw [hd3])
  have hd3b : raw.drop (sn + leaf.mode.length + 1 + leaf.path.length)
      = 0 :: (toBytesBE leaf.sha 20 ++ rest) :=
    drop_add_of_drop_eq (x := leaf.path) hd3
  have hd4 : raw.drop (sn + leaf.mode.length + 1 + leaf.path.length + 1)
      = toBytesBE leaf.sha 20 ++ rest := by
    have := drop_add_of_drop_eq (x := [0])
      (show raw.drop (sn + leaf.mode.length + 1 + leaf.path.length)
        = [0] ++ (toBytesBE leaf.sha 20 ++ rest) by simpa using hd3b)
    simpa using this
  have hsha : pySlice raw ((sn + leaf.mode.length + 1 + leaf.path.length + 1 : Nat) : Int)
      ((sn + leaf.mode.length + 1 + leaf.path.length + 1 + 20 : Nat) : Int)
      = toBytesBE leaf.sha 20 := by
    have := pySlice_of_drop (l := toBytesBE leaf.sha 20)
      (sn + leaf.mode.length + 1 + leaf.path.length + 1) (by rw [hd4])
    rw [h20] at this
    exact this
  rw [tree_parse_one]
  rw [hx, hmode]
  rw [hy]
  have e1 : ((sn + leaf.mode.length : Nat) : Int) + 1
      = ((sn + leaf.mode.length + 1 : Nat) : Int) := by push_cast; ring
  have e2 : ((sn + leaf.mode.length + (leaf.path.length + 1) : Nat) : Int)
      = ((sn + leaf.mode.length + 1 + leaf.path.length : Nat) : Int) := by push_cast; ring
  rw [e1, e2, hpath]
  have e3 : ((sn + leaf.mode.length + 1 + leaf.path.length : Nat) : Int) + 1
      = ((sn + leaf.mode.length + 1 + leaf.path.length + 1 : Nat) : Int) := by push_cast; ring
  have e4 : ((sn + leaf.mode.length + 1 + leaf.path.length : Nat) : Int) + 21
      = ((sn + leaf.mode.length + 1 + leaf.path.length + 1 + 20 : Nat) : Int) := by push_cast; ring
  rw [e3, e4, hsha]
  rw [fromBytesBE_toBytesBE _ _ hs]
  simp only [Prod.mk.injEq]
  refine ⟨?_, trivial⟩
  rw [encLeaf_length]
  push_cast
  ring

theorem treeParseGo_spec (items : List GitTreeLeaf) :
    ∀ (fuel sn : Nat) (acc : List GitTreeLeaf) (raw : List Nat),
    raw.drop sn = items.flatMap encLeaf →
    (∀ l ∈ items, WfLeaf l) →
    fuel ≥ items.length + 1 →
    treeParseGo raw fuel (sn : Int) acc = some (acc ++ items) := by
  induction items with
  | nil =>
    intro fuel sn acc raw hdrop _ hfuel
    obtain ⟨f, rfl⟩ : ∃ f, fuel = f + 1 := ⟨fuel - 1, by omega⟩
    have hlen : raw.length ≤ sn := by
      by_contra hlt
      have hne : raw.drop sn ≠ [] := by
        intro hnil
        have := List.drop_eq_nil_iff.mp hnil
        omega
      exact hne (by simpa using hdrop)
    rw [treeParseGo, if_neg (by omega)]
    simp
  | cons leaf rest ih =>
    intro fuel sn acc raw hdrop hwf hfuel
    obtain ⟨f, rfl⟩ : ∃ f, fuel = f + 1 := ⟨fuel - 1, by omega⟩
    have hflat : raw.drop sn = encLeaf leaf ++ rest.flatMap encLeaf := by
      rw [hdrop, List.flatMap_cons]
    have hlt : sn < raw.length := by
      by_contra hge
      have : raw.drop sn = [] := List.drop_eq_nil_of_le (by omega)
      rw [this] at hflat
      have : (encLeaf leaf).length = 0 := by
        have := congrArg List.length hflat
        simp at this
        omega
      rw [encLeaf_length] at this
      omega
    have hone := tree_parse_one_spec sn leaf hflat (hwf leaf (List.mem_cons_self _ _))
    rw [treeParseGo, if_pos (by omega)]
    simp only [hone]
    have hdrop' : raw.drop (sn + (encLeaf leaf).length) = rest.flatMap encLeaf :=
      drop_add_of_drop_eq hflat
    have := ih f (sn + (encLeaf leaf).length) (acc ++ [leaf]) raw hdrop'
      (fun l hl => hwf l (List.mem_cons_of_mem _ hl)) (by simp at hfuel ⊢; omega)
    rw [this]
    simp

theorem flatMap_encLeaf_length_ge (items : List GitTreeLeaf) :
    items.length ≤ (items.flatMap encLeaf).length := by
  induction items with
  | nil => simp
  | cons leaf rest ih =>
    rw [List.flatMap_cons]
    simp only [List.length_append, List.length_cons]
    rw [encLeaf_length]
    omega

theorem tree_parse_flatMap (items : List GitTreeLeaf)
    (hwf : ∀ l ∈ items, WfLeaf l) :
    tree_parse (items.flatMap encLeaf) = some items := by
  have hfuel : (items.flatMap encLeaf).length + 2 ≥ items.length + 1 := by
    have := flatMap_encLeaf_length_ge items
    omega
  have := treeParseGo_spec items ((items.flatMap encLeaf).length + 2) 0 []
    (items.flatMap encLeaf) (by simp) hwf hfuel
  rw [tree_parse]
  simpa using this

theorem byteLe_total (a b : List Nat) : byteLe a b || byteLe b a := by
  induction a generalizing b with
  | nil => simp [byteLe]
  | cons x xs ih =>
    cases b with
    | nil => simp [byteLe]
    | cons y ys =>
      by_cases hxy : x < y
      · simp [byteLe, hxy]
      · by_cases heq : x = y
        · subst heq
          have := ih ys
          simp [byteLe] at this ⊢
          rcases this with h | h
          · exact Or.inl h
          · exact Or.inr h
        · have hyx : y < x := by omega
          simp [byteLe, hxy, heq, hyx]

theorem byteLe_trans (a b c : List Nat) :
    byteLe a b = true → byteLe b c = true → byteLe a c = true := by
  induction a generalizing b c with
  | nil => intro _ _; simp [byteLe]
  | cons x xs ih =>
    intro hab hbc
    cases b with
    | nil => simp [byteLe] at hab
    | cons y ys =>
      cases c with
      | nil => simp [byteLe] at hbc
      | cons z zs =>
        simp only [byteLe] at hab hbc ⊢
        by_cases hxy : x < y
        · by_cases hyz : y < z
          · have : x < z := by omega
            simp [this]
          · by_cases hyz' : y = z
            · subst hyz'
              simp [hxy]
            · simp [hyz, hyz'] at hbc
        · by_cases hxy' : x = y
          · subst hxy'
            by_cases hyz : x < z
            · simp [hyz]
            · by_cases hyz' : x = z
              · subst hyz'
                simp only [if_neg hyz, if_pos rfl] at hbc ⊢
                simp only [if_neg (lt_irrefl x), if_pos rfl] at hab
                exact ih ys zs hab hbc
              · simp [hyz, hyz'] at hbc
          · simp [hxy, hxy'] at hab

theorem keyLeB_total (a b : GitTreeLeaf) : keyLeB a b || keyLeB b a :=
  byteLe_total (sort_key a) (sort_key b)

theorem keyLeB_trans (a b c : GitTreeLeaf) :
    keyLeB a b = true → keyLeB b c = true → keyLeB a c = true :=
  byteLe_trans (sort_key a) (sort_key b) (sort_key c)

/-- Core round trip: serializing any list of well-formed leaves and
re-parsing yields the (stably) sorted list, whose re-serialization is
byte-identical to the first serialization. -/
theorem tree_roundtrip (items : List GitTreeLeaf)
    (hwf : ∀ l ∈ items, WfLeaf l) :
    tree_parse (tree_serialize items) = some (items.mergeSort keyLeB)
      ∧ tree_serialize (items.mergeSort keyLeB) = tree_serialize items := by
  have hwf' : ∀ l ∈ items.mergeSort keyLeB, WfLeaf l := by
    intro l hl
    exact hwf l (List.mem_mergeSort.mp hl)
  have hsorted : (items.mergeSort keyLeB).Pairwise (fun a b => keyLeB a b) :=
    List.sorted_mergeSort (fun a b c => keyLeB_trans a b c)
      (fun a b => keyLeB_total a b) items
  have hidem : (items.mergeSort keyLeB).mergeSort keyLeB = items.mergeSort keyLeB :=
    List.mergeSort_of_sorted hsorted
  constructor
  · rw [tree_serialize_eq_flatMap]
    exact tree_parse_flatMap _ hwf'
  · rw [tree_serialize_eq_flatMap items, tree_serialize_eq_flatMap, hidem]

/-! ### KVLM (commit/tag) bodies (`objects.py`, `kvlm_parse` /
`kvlm_serialize`)

A Python kvlm dict value is either a byte string or a list of byte
strings; the dict maps byte-string keys (in insertion order, each key
at most once) plus the `None` key for the message, which the parser
always sets last.  We model it as an ordered association list plus a
message field. -/

inductive KvVal where
  | str (s : List Nat) : KvVal
  | lst (l : List (List Nat)) : KvVal
  deriving DecidableEq, Repr

structure Kvlm where
  pairs : List (List Nat × KvVal)
  msg : List Nat
  deriving DecidableEq, Repr

/-- The duplicate-key handling of `kvlm_parse` (objects.py:256-262):
a repeated key promotes the scalar to a two-element list, further
repeats append. -/
def dctInsert : List (List Nat × KvVal) → List Nat → List Nat → List (List Nat × KvVal)
  | [], k, w => [(k, .str w)]
  | (k', v') :: rest, k, w =>
    if k' = k then
      (k', match v' with
        | .str s => .lst [s, w]
        | .lst l => .lst (l ++ [w])) :: rest
    else (k', v') :: dctInsert rest k w

/-- The inner `while True` scan of `kvlm_parse` (objects.py:245-250)
that finds the end of a (possibly continued) value: repeatedly find the
next newline and stop at one not followed by a space.  `none` models a
Python `IndexError` (`raw[end+1]` out of range) or non-termination of
the scan (a repeated `end` value loops forever; within a terminating
run all `end` values are distinct, so `len + 2` iterations suffice). -/
def kvlmEndScan (raw : List Nat) : Nat → Int → Option Int
  | 0, _ => none
  | fuel + 1, e =>
    let e' := pyFind raw 10 (e + 1)
    match raw[((e' + 1).toNat)]? with
    | none => none
    | some c => if c ≠ 32 then some e' else kvlmEndScan raw fuel e'

/-- The recursion of `kvlm_parse` (objects.py:225-264), with fuel;
`none` models non-termination or an `IndexError` escaping the Python
code.  A terminating Python run revisits no `start` position (the
control flow is a function of the position alone), so `len + 2`
recursion steps suffice. -/
def kvlmGo (raw : List Nat) : Nat → Int → List (List Nat × KvVal) → Option Kvlm
  | 0, _, _ => none
  | fuel + 1, start, pairs =>
    let spc := pyFind raw 32 start
    let nl := pyFind raw 10 start
    if spc < 0 ∨ nl < spc then
      some ⟨pairs, pySlice raw (start + 1) (raw.length : Int)⟩
    else
      let key := pySlice raw start spc
      match kvlmEndScan raw (raw.length + 2) start with
      | none => none
      | some e =>
        let value := pyReplace (pySlice raw (spc + 1) e) [10, 32] [10]
        kvlmGo raw fuel (e + 1) (dctInsert pairs key value)

/-- `kvlm_parse` (objects.py:225-264), from position 0 with a fresh
dict. -/
def kvlm_parse (raw : List Nat) : Option Kvlm :=
  kvlmGo raw (raw.length + 2) 0 []

/-- Python's `val if isinstance(val, list) else [val]` in
`kvlm_serialize`. -/
def valsOf : KvVal → List (List Nat)
  | .str s => [s]
  | .lst l => l

/-- `kvlm_serialize` (objects.py:267-282): one `key SP value NL` line
per value with embedded newlines rewritten to newline-plus-space, then
a blank line, then the message (skipped when falsy, i.e. empty). -/
def kvlm_serialize (kv : Kvlm) : List Nat :=
  (kv.pairs.foldl (fun acc p =>
    (valsOf p.2).foldl
      (fun acc2 w => acc2 ++ p.1 ++ [32] ++ pyReplace w [10] [10, 32] ++ [10]) acc) [])
  ++ [10] ++ (if kv.msg = [] then [] else kv.msg)

/-! ### `pyReplace` lemmas: the newline escaping is invertible -/

theorem pyReplace_cons10 (s : List Nat) :
    pyReplace (10 :: s) [10] [10, 32] = 10 :: 32 :: pyReplace s [10] [10, 32] := by
  rw [pyReplace_unfold]
  rw [if_pos (by simp)]
  simp

theorem pyReplace_cons_ne {x : Nat} (hx : x ≠ 10) (s : List Nat) :
    pyReplace (x :: s) [10] [10, 32] = x :: pyReplace s [10] [10, 32] := by
  rw [pyReplace_unfold]
  rw [if_neg (by simp [hx])]

/-- Byte strings in which every newline is immediately followed by a
space (the shape `v.replace(b"\n", b"\n ")` produces). -/
inductive Esc : List Nat → Prop
  | nil : Esc []
  | cons10 {t : List Nat} : Esc t → Esc (10 :: 32 :: t)
  | consO {x : Nat} {t : List Nat} : x ≠ 10 → Esc t → Esc (x :: t)

theorem esc_pyReplace (w : List Nat) : Esc (pyReplace w [10] [10, 32]) := by
  induction w with
  | nil =>
    exact Esc.nil
  | cons x s ih =>
    by_cases hx : x = 10
    · subst hx
      rw [pyReplace_cons10]
      exact Esc.cons10 ih
    · rw [pyReplace_cons_ne hx]
      exact Esc.consO hx ih

theorem pyReplace_inverse (w : List Nat) :
    pyReplace (pyReplace w [10] [10, 32]) [10, 32] [10] = w := by
  induction w with
  | nil => simp [pyReplace, pyReplaceGo]
  | cons x s ih =>
    by_cases hx : x = 10
    · subst hx
      rw [pyReplace_cons10]
      rw [pyReplace_unfold]
      rw [if_pos (by simp)]
      simp only [List.length_cons, List.length_nil, List.drop_succ_cons, List.drop_zero]
      rw [ih]
      rfl
    · rw [pyReplace_cons_ne hx]
      have hcond : ¬ (([10, 32] : List Nat) ≠ []
          ∧ (x :: pyReplace s [10] [10, 32]).take ([10, 32] : List Nat).length
            = [10, 32]) := by
        intro hcontra
        have h2 := hcontra.2
        simp [List.take_succ_cons] at h2
        exact hx h2.1
      rw [pyReplace_unfold, if_neg hcond, ih]

/-! ### Parsing lemmas for the KVLM scan -/

theorem findFrom_append_of_not_mem {xs ys : List Nat} {b : Nat} (hb : b ∉ xs) :
    findFrom (xs ++ ys) b = (findFrom ys b).map (· + xs.length) := by
  induction xs with
  | nil => simp
  | cons x xs ih =>
    have hx : x ≠ b := fun h => hb (h ▸ List.mem_cons_self x xs)
    have hb' : b ∉ xs := fun h => hb (List.mem_cons_of_mem x h)
    rw [List.cons_append, findFrom, if_neg hx, ih hb']
    cases hys : findFrom ys b with
    | none => rfl
    | some j =>
      show some (j + xs.length + 1) = some (j + (x :: xs).length)
      have harith : j + xs.length + 1 = j + (x :: xs).length := by
        simp only [List.length_cons]
        omega
      rw [harith]

theorem findFrom_isSome {l : List Nat} {b : Nat} (hb : b ∈ l) :
    ∃ j, findFrom l b = some j := by
  induction l with
  | nil => simp at hb
  | cons x xs ih =>
    by_cases hx : x = b
    · exact ⟨0, by rw [findFrom, if_pos hx]⟩
    · have hmem : b ∈ xs := by
        rcases List.mem_cons.mp hb with h | h
        · exact absurd h.symm hx
        · exact h
      obtain ⟨j, hj⟩ := ih hmem
      refine ⟨j + 1, ?_⟩
      rw [findFrom, if_neg hx, hj]
      rfl

theorem pyFind_ge {r x y : List Nat} {b : Nat} (sn : Nat)
    (h : r.drop sn = x ++ y) (hb : b ∉ x) (hmem : b ∈ y) :
    ∃ j : Nat, pyFind r b sn = ((sn + x.length + j : Nat) : Int) := by
  obtain ⟨j, hj⟩ := findFrom_isSome hmem
  have hn : ¬ ((sn : Int) < 0) := by omega
  refine ⟨j, ?_⟩
  have hmain : findFrom (r.drop sn) b = some (j + x.length) := by
    rw [h, findFrom_append_of_not_mem hb, hj]
    rfl
  simp [pyFind, hn, hmain]
  omega

theorem pyFind_head_ne {raw t : List Nat} {b c : Nat} (sn : Nat)
    (h : raw.drop sn = c :: t) (hc : c ≠ b) :
    pyFind raw b sn = -1 ∨ ∃ j : Nat, pyFind raw b sn = ((sn + 1 + j : Nat) : Int) := by
  have hn : ¬ ((sn : Int) < 0) := by omega
  cases hft : findFrom t b with
  | none =>
    left
    have hmain : findFrom (raw.drop sn) b = none := by
      rw [h, findFrom, if_neg hc, hft]
      rfl
    simp [pyFind, hn, hmain]
  | some j =>
    right
    refine ⟨j, ?_⟩
    have hmain : findFrom (raw.drop sn) b = some (j + 1) := by
      rw [h, findFrom, if_neg hc, hft]
      rfl
    simp [pyFind, hn, hmain]
    omega

theorem getElem?_of_drop {raw D : List Nat} {sn : Nat} (h : raw.drop sn = D)
    (m : Nat) : raw[(sn + m)]? = D[m]? := by
  rw [← List.getElem?_drop, h]

theorem kvlmEndScan_spec {raw : List Nat} {v : List Nat} (hesc : Esc v) :
    ∀ (fuel : Nat) (en : Nat) (mid rest : List Nat) (c : Nat),
    raw.drop (en + 1) = mid ++ v ++ 10 :: rest → 10 ∉ mid →
    rest.head? = some c → c ≠ 32 → fuel ≥ v.length + 1 →
    kvlmEndScan raw fuel (en : Int)
      = some ((en + 1 + mid.length + v.length : Nat) : Int) := by
  induction hesc with
  | nil =>
    intro fuel en mid rest c hdrop hmid hhead hc hfuel
    obtain ⟨f, rfl⟩ : ∃ f, fuel = f + 1 := ⟨fuel - 1, by omega⟩
    have hdrop' : raw.drop (en + 1) = mid ++ 10 :: rest := by simpa using hdrop
    have hfind : pyFind raw 10 ((en : Int) + 1) = ((en + 1 + mid.length : Nat) : Int) := by
      have hcast : ((en : Int) + 1) = ((en + 1 : Nat) : Int) := by push_cast; ring
      rw [hcast]
      exact pyFind_eq (en + 1) hdrop' hmid
    have htn : ((((en + 1 + mid.length : Nat) : Int) + 1).toNat) = en + 1 + mid.length + 1 := by
      omega
    have hat : raw[(en + 1 + mid.length + 1)]? = some c := by
      have h1 : raw[(en + 1 + (mid.length + 1))]? = (mid ++ 10 :: rest)[(mid.length + 1)]? :=
        getElem?_of_drop hdrop' _
      rw [List.getElem?_append_right (by simp)] at h1
      have h2 : mid.length + 1 - mid.length = 1 := by omega
      rw [h2] at h1
      rw [List.getElem?_cons] at h1
      rw [if_neg (by omega)] at h1
      simp only [Nat.sub_self] at h1
      have h3 : rest[0]? = rest.head? := by
        cases rest with
        | nil => simp at hhead
        | cons r rs => simp
      rw [h3, hhead] at h1
      have h4 : en + 1 + mid.length + 1 = en + 1 + (mid.length + 1) := by omega
      rw [h4]
      exact h1
    simp only [kvlmEndScan, hfind, htn, hat]
    simp only [List.length_nil, Nat.add_zero]
    rw [if_pos hc]
  | cons10 ht ih =>
    rename_i t
    intro fuel en mid rest c hdrop hmid hhead hc hfuel
    obtain ⟨f, rfl⟩ : ∃ f, fuel = f + 1 := ⟨fuel - 1, by omega⟩
    have hdrop' : raw.drop (en + 1) = mid ++ 10 :: (32 :: (t ++ 10 :: rest)) := by
      rw [hdrop]
      simp
    have hfind : pyFind raw 10 ((en : Int) + 1) = ((en + 1 + mid.length : Nat) : Int) := by
      have hcast : ((en : Int) + 1) = ((en + 1 : Nat) : Int) := by push_cast; ring
      rw [hcast]
      exact pyFind_eq (en + 1) hdrop' hmid
    have htn : ((((en + 1 + mid.length : Nat) : Int) + 1).toNat) = en + 1 + mid.length + 1 := by
      omega
    have hat : raw[(en + 1 + mid.length + 1)]? = some 32 := by
      have h1 : raw[(en + 1 + (mid.length + 1))]?
          = (mid ++ 10 :: (32 :: (t ++ 10 :: rest)))[(mid.length + 1)]? :=
        getElem?_of_drop hdrop' _
      rw [List.getElem?_append_right (by simp)] at h1
      have h2 : mid.length + 1 - mid.length = 1 := by omega
      rw [h2] at h1
      rw [List.getElem?_cons] at h1
      rw [if_neg (by omega)] at h1
      simp only [Nat.sub_self] at h1
      rw [List.getElem?_cons, if_pos rfl] at h1
      have h4 : en + 1 + mid.length + 1 = en + 1 + (mid.length + 1) := by omega
      rw [h4]
      exact h1
    have hdropNext : raw.drop (en + 1 + mid.length + 1) = [32] ++ t ++ 10 :: rest := by
      have hstep := drop_add_of_drop_eq (x := mid ++ [10])
        (show raw.drop (en + 1) = (mid ++ [10]) ++ (32 :: (t ++ 10 :: rest)) by
          rw [hdrop']; simp)
      have harith : en + 1 + (mid ++ [10]).length = en + 1 + mid.length + 1 := by
        simp only [List.length_append, List.length_cons, List.length_nil]
        omega
      rw [harith] at hstep
      rw [hstep]
      simp
    have hres := ih f (en + 1 + mid.length) [32] rest c hdropNext
      (by simp) hhead hc (by simp only [List.length_cons] at hfuel ⊢; omega)
    simp only [kvlmEndScan, hfind, htn, hat]
    rw [if_neg (by simp)]
    rw [hres]
    congr 1
    simp only [List.length_append, List.length_cons, List.length_nil]
    omega
  | consO hx ht ih =>
    rename_i x t
    intro fuel en mid rest c hdrop hmid hhead hc hfuel
    have hdrop' : raw.drop (en + 1) = (mid ++ [x]) ++ t ++ 10 :: rest := by
      rw [hdrop]
      simp
    have hmid' : (10 : Nat) ∉ mid ++ [x] := by
      intro hmem
      rcases List.mem_append.mp hmem with h | h
      · exact hmid h
      · simp at h
        exact hx h.symm
    have hres := ih fuel en (mid ++ [x]) rest c hdrop' hmid' hhead hc
      (by simp only [List.length_cons] at hfuel ⊢; omega)
    rw [hres]
    congr 1
    simp only [List.length_append, List.length_cons, List.length_nil]
    omega

/-! ### KVLM round trip -/

/-- One serialized header line `key SP escaped-value NL`. -/
def lineOf (k w : List Nat) : List Nat :=
  k ++ [32] ++ pyReplace w [10] [10, 32] ++ [10]

/-- The physical header lines of a serialized kvlm, one per value. -/
def flatLines (lns : List (List Nat × List Nat)) : List Nat :=
  lns.flatMap (fun p => lineOf p.1 p.2)

/-- Each key paired with each of its values, in order. -/
def expandPairs (pairs : List (List Nat × KvVal)) : List (List Nat × List Nat) :=
  pairs.flatMap (fun p => (valsOf p.2).map (fun w => (p.1, w)))

/-- `kvlm_serialize` is the flat header lines, a blank line, and the
message. -/
theorem kvlm_serialize_eq (kv : Kvlm) :
    kvlm_serialize kv
      = flatLines (expandPairs kv.pairs) ++ [10] ++ (if kv.msg = [] then [] else kv.msg) := by
  have inner : ∀ (k : List Nat) (ws : List (List Nat)) (acc : List Nat),
      ws.foldl (fun a w => a ++ k ++ [32] ++ pyReplace w [10] [10, 32] ++ [10]) acc
        = acc ++ ws.flatMap (fun w => lineOf k w) := by
    intro k ws
    induction ws with
    | nil => intro acc; simp
    | cons w ws ih =>
      intro acc
      rw [List.foldl_cons, ih, List.flatMap_cons]
      simp [lineOf]
  have outer : ∀ (pairs : List (List Nat × KvVal)) (acc : List Nat),
      pairs.foldl (fun acc p =>
        (valsOf p.2).foldl
          (fun acc2 w => acc2 ++ p.1 ++ [32] ++ pyReplace w [10] [10, 32] ++ [10]) acc) acc
        = acc ++ flatLines (expandPairs pairs) := by
    intro pairs
    induction pairs with
    | nil => intro acc; simp [flatLines, expandPairs]
    | cons p rest ih =>
      intro acc
      rw [List.foldl_cons, inner p.1 (valsOf p.2) acc, ih]
      simp only [flatLines, expandPairs, List.flatMap_cons, List.flatMap_append]
      rw [List.flatMap_map]
      simp [List.append_assoc]
  rw [kvlm_serialize, outer]
  simp

theorem flatLines_length_ge (lns : List (List Nat × List Nat)) :
    lns.length ≤ (flatLines lns).length := by
  induction lns with
  | nil => simp [flatLines]
  | cons p rest ih =>
    simp only [flatLines, List.flatMap_cons, List.length_append, List.length_cons] at ih ⊢
    have : 1 ≤ (lineOf p.1 p.2).length := by
      simp only [lineOf, List.length_append, List.length_cons, List.length_nil]
      omega
    omega

theorem kvlmGo_spec (lns : List (List Nat × List Nat)) :
    ∀ (raw msgPart : List Nat) (fuel sn : Nat) (pairs : List (List Nat × KvVal)),
    raw.drop sn = flatLines lns ++ 10 :: msgPart →
    (∀ p ∈ lns, p.1 ≠ [] ∧ 32 ∉ p.1 ∧ 10 ∉ p.1) →
    fuel ≥ lns.length + 1 →
    kvlmGo raw fuel (sn : Int) pairs
      = some ⟨lns.foldl (fun ps p => dctInsert ps p.1 p.2) pairs, msgPart⟩ := by
  induction lns with
  | nil =>
    intro raw msgPart fuel sn pairs hdrop _ hfuel
    obtain ⟨f, rfl⟩ : ∃ f, fuel = f + 1 := ⟨fuel - 1, by omega⟩
    have hdrop10 : raw.drop sn = 10 :: msgPart := by
      simpa [flatLines] using hdrop
    have hnl : pyFind raw 10 sn = ((sn : Nat) : Int) := by
      have := pyFind_eq sn (x := []) (y := msgPart) (by simpa using hdrop10) (by simp)
      simpa using this
    have hmsg : pySlice raw ((sn : Int) + 1) (raw.length : Int) = msgPart := by
      have hdc : raw.drop (sn + 1) = msgPart := by
        have := drop_add_of_drop_eq (x := [10])
          (show raw.drop sn = [10] ++ msgPart by simpa using hdrop10)
        simpa using this
      have hcast : ((sn : Int) + 1) = ((sn + 1 : Nat) : Int) := by push_cast; ring
      rw [hcast, pySlice_to_end, hdc]
    rcases pyFind_head_ne (b := 32) sn hdrop10 (by omega) with hspc | ⟨j, hspc⟩
    · simp only [kvlmGo, hspc, hnl]
      rw [if_pos (by omega)]
      rw [hmsg]
      simp
    · simp only [kvlmGo, hspc, hnl]
      rw [if_pos (by omega)]
      rw [hmsg]
      simp
  | cons p more ih =>
    intro raw msgPart fuel sn pairs hdrop hwfL hfuel
    obtain ⟨f, rfl⟩ : ∃ f, fuel = f + 1 := ⟨fuel - 1, by omega⟩
    obtain ⟨k, w⟩ := p
    obtain ⟨hkne, hk32, hk10⟩ := hwfL (k, w) (List.mem_cons_self _ _)
    set w' := pyReplace w [10] [10, 32] with hw'
    set rest := flatLines more ++ 10 :: msgPart with hrest
    have hdropG : raw.drop sn = k ++ 32 :: (w' ++ 10 :: rest) := by
      rw [hdrop]
      simp only [flatLines, List.flatMap_cons, lineOf, hrest, ← hw']
      simp [List.append_assoc, flatLines]
    have hspc : pyFind raw 32 sn = ((sn + k.length : Nat) : Int) :=
      pyFind_eq sn hdropG hk32
    have hnlj : ∃ j : Nat, pyFind raw 10 sn
        = ((sn + (k ++ [32]).length + j : Nat) : Int) := by
      apply pyFind_ge sn (y := w' ++ 10 :: rest)
      · rw [hdropG]; simp
      · intro hmem
        rcases List.mem_append.mp hmem with h | h
        · exact hk10 h
        · simp at h
      · simp
    obtain ⟨j, hnl⟩ := hnlj
    have hklen : (k ++ [32]).length = k.length + 1 := by simp
    rw [hklen] at hnl
    have hkey : pySlice raw (sn : Int) ((sn + k.length : Nat) : Int) = k :=
      pySlice_of_drop sn (by rw [hdropG])
    -- the value slice region
    have hdropVal : raw.drop (sn + k.length + 1) = w' ++ 10 :: rest := by
      have := drop_add_of_drop_eq (x := k ++ [32])
        (show raw.drop sn = (k ++ [32]) ++ (w' ++ 10 :: rest) by rw [hdropG]; simp)
      rw [hklen] at this
      rw [Nat.add_assoc]
      exact this
    -- head of the tail after this line
    have hresthead : ∃ c, rest.head? = some c ∧ c ≠ 32 := by
      cases hm : more with
      | nil =>
        refine ⟨10, ?_, by omega⟩
        rw [hrest, hm]
        simp [flatLines]
      | cons q more2 =>
        obtain ⟨hqne, hq32, _⟩ := hwfL q (by rw [hm]; exact List.mem_cons_of_mem _ (List.mem_cons_self _ _))
        cases hq : q.1 with
        | nil => exact absurd hq hqne
        | cons qh qt =>
          refine ⟨qh, ?_, ?_⟩
          · rw [hrest, hm]
            simp only [flatLines, List.flatMap_cons, lineOf, hq]
            simp
          · intro hcontra
            apply hq32
            rw [hq, hcontra]
            exact List.mem_cons_self _ _
    obtain ⟨c, hheadc, hc32⟩ := hresthead
    -- the end scan
    have hscanDrop : raw.drop (sn + 1) = (k.drop 1 ++ [32]) ++ w' ++ 10 :: rest := by
      cases hk : k with
      | nil => exact absurd hk hkne
      | cons kh kt =>
        have := drop_add_of_drop_eq (x := [kh])
          (show raw.drop sn = [kh] ++ (kt ++ 32 :: (w' ++ 10 :: rest)) by
            rw [hdropG, hk]; simp)
        simp only [List.length_cons, List.length_nil] at this
        rw [this]
        simp
    have hw'len : w'.length ≤ raw.length := by
      have := congrArg List.length hscanDrop
      simp only [List.length_drop, List.length_append, List.length_cons] at this
      omega
    have hscan : kvlmEndScan raw (raw.length + 2) (sn : Int)
        = some ((sn + 1 + (k.drop 1 ++ [32]).length + w'.length : Nat) : Int) :=
      kvlmEndScan_spec (esc_pyReplace w) (raw.length + 2) sn (k.drop 1 ++ [32]) rest c
        hscanDrop
        (by
          intro hmem
          rcases List.mem_append.mp hmem with h | h
          · exact hk10 (List.mem_of_mem_drop h)
          · simp at h)
        hheadc hc32 (by rw [← hw']; omega)
    have hmidlen : (k.drop 1 ++ [32]).length = k.length := by
      simp only [List.length_append, List.length_drop, List.length_cons, List.length_nil]
      cases k with
      | nil => exact absurd rfl hkne
      | cons kh kt => simp
    rw [hmidlen] at hscan
    -- the slice giving the raw value bytes
    have hvalslice : pySlice raw (((sn + k.length : Nat) : Int) + 1)
        ((sn + 1 + k.length + w'.length : Nat) : Int) = w' := by
      have hcast1 : (((sn + k.length : Nat) : Int) + 1) = ((sn + k.length + 1 : Nat) : Int) := by
        push_cast; ring
      have hcast2 : ((sn + 1 + k.length + w'.length : Nat) : Int)
          = ((sn + k.length + 1 + w'.length : Nat) : Int) := by
        push_cast; ring
      rw [hcast1, hcast2]
      exact pySlice_of_drop _ (by rw [hdropVal])
    -- the recursive call position
    have hdropNext : raw.drop (sn + 1 + k.length + w'.length + 1) = rest := by
      have := drop_add_of_drop_eq (x := w' ++ [10])
        (show raw.drop (sn + k.length + 1) = (w' ++ [10]) ++ rest by rw [hdropVal]; simp)
      rw [← this]
      congr 1
      simp only [List.length_append, List.length_cons, List.length_nil]
      omega
    have hrec := ih raw msgPart f (sn + 1 + k.length + w'.length + 1) (dctInsert pairs k w)
      (by rw [hdropNext])
      (fun q hq => hwfL q (List.mem_cons_of_mem _ hq))
      (by simp only [List.length_cons] at hfuel; omega)
    -- assemble
    simp only [kvlmGo, hspc, hnl, hscan]
    rw [if_neg (by omega)]
    rw [hkey, hvalslice, pyReplace_inverse]
    have hcast3 : (((sn + 1 + k.length + w'.length : Nat) : Int) + 1)
        = ((sn + 1 + k.length + w'.length + 1 : Nat) : Int) := by
      push_cast; ring
    rw [hcast3, hrec]
    simp

/-- Well-formedness of a kvlm value for exact round-tripping: a list
value must have at least two entries (a singleton list serializes like
a scalar and re-parses as one). -/
def WfVal : KvVal → Prop
  | .str _ => True
  | .lst l => 2 ≤ l.length

instance : DecidablePred WfVal := fun v =>
  match v with
  | .str _ => isTrue trivial
  | .lst l => (inferInstance : Decidable (2 ≤ l.length))

/-- How `dctInsert` extends an existing binding. -/
def pushVal : KvVal → List Nat → KvVal
  | .str s, w => .lst [s, w]
  | .lst l, w => .lst (l ++ [w])

theorem dctInsert_not_mem {done : List (List Nat × KvVal)} {k : List Nat}
    (hk : k ∉ done.map Prod.fst) (w : List Nat) :
    dctInsert done k w = done ++ [(k, .str w)] := by
  induction done with
  | nil => rfl
  | cons q rest ih =>
    have hne : q.1 ≠ k := by
      intro hcontra
      apply hk
      rw [← hcontra]
      exact List.mem_map_of_mem Prod.fst (List.mem_cons_self _ _)
    obtain ⟨k', v'⟩ := q
    simp only [dctInsert]
    rw [if_neg hne, ih (fun hmem => hk (List.mem_cons_of_mem _ hmem))]
    rfl

theorem dctInsert_append_last {done : List (List Nat × KvVal)} {k : List Nat}
    (hk : k ∉ done.map Prod.fst) (x : KvVal) (w : List Nat) :
    dctInsert (done ++ [(k, x)]) k w = done ++ [(k, pushVal x w)] := by
  induction done with
  | nil =>
    cases x with
    | str s => simp [dctInsert, pushVal]
    | lst l => simp [dctInsert, pushVal]
  | cons q rest ih =>
    have hne : q.1 ≠ k := by
      intro hcontra
      apply hk
      rw [← hcontra]
      exact List.mem_map_of_mem Prod.fst (List.mem_cons_self _ _)
    obtain ⟨k', v'⟩ := q
    rw [List.cons_append]
    simp only [dctInsert]
    rw [if_neg hne, ih (fun hmem => hk (List.mem_cons_of_mem _ hmem))]
    rfl

theorem foldl_dctInsert_lst {k : List Nat} (ws : List (List Nat)) :
    ∀ (done : List (List Nat × KvVal)) (l : List (List Nat)),
    k ∉ done.map Prod.fst →
    ws.foldl (fun ps w => dctInsert ps k w) (done ++ [(k, .lst l)])
      = done ++ [(k, .lst (l ++ ws))] := by
  induction ws with
  | nil => intro done l _; simp
  | cons w ws ih =>
    intro done l hk
    rw [List.foldl_cons, dctInsert_append_last hk]
    rw [show pushVal (.lst l) w = .lst (l ++ [w]) from rfl]
    rw [ih done (l ++ [w]) hk]
    simp

theorem foldl_dctInsert_group {done : List (List Nat × KvVal)} {k : List Nat}
    (hk : k ∉ done.map Prod.fst) (v : KvVal) (hv : WfVal v) :
    (valsOf v).foldl (fun ps w => dctInsert ps k w) done = done ++ [(k, v)] := by
  cases v with
  | str s =>
    rw [valsOf, List.foldl_cons, List.foldl_nil, dctInsert_not_mem hk]
  | lst l =>
    match l, hv with
    | w1 :: w2 :: ws, _ =>
      rw [valsOf, List.foldl_cons, List.foldl_cons, dctInsert_not_mem hk,
        dctInsert_append_last hk]
      rw [show pushVal (.str w1) w2 = .lst [w1, w2] from rfl]
      rw [foldl_dctInsert_lst ws done [w1, w2] hk]
      rfl

theorem foldl_dctInsert_expand (pairs : List (List Nat × KvVal)) :
    ∀ (done : List (List Nat × KvVal)),
    (∀ p ∈ pairs, WfVal p.2) →
    (pairs.map Prod.fst).Nodup →
    (∀ p ∈ pairs, p.1 ∉ done.map Prod.fst) →
    (expandPairs pairs).foldl (fun ps q => dctInsert ps q.1 q.2) done = done ++ pairs := by
  induction pairs with
  | nil =>
    intro done _ _ _
    simp [expandPairs]
  | cons p rest ih =>
    intro done hwf hnodup hdone
    obtain ⟨k, v⟩ := p
    rw [expandPairs, List.flatMap_cons, List.foldl_append]
    have hgroup : ((valsOf v).map (fun w => (k, w))).foldl
        (fun ps q => dctInsert ps q.1 q.2) done = done ++ [(k, v)] := by
      rw [List.foldl_map]
      exact foldl_dctInsert_group (hdone (k, v) (List.mem_cons_self _ _))
        v (hwf (k, v) (List.mem_cons_self _ _))
    rw [hgroup]
    have hrest := ih (done ++ [(k, v)])
      (fun q hq => hwf q (List.mem_cons_of_mem _ hq))
      (List.Nodup.of_cons (by simpa using hnodup))
      (by
        intro q hq hmem
        rw [List.map_append] at hmem
        rcases List.mem_append.mp hmem with h | h
        · exact hdone q (List.mem_cons_of_mem _ hq) h
        · simp at h
          have hne : q.1 ≠ k := by
            have hnd := hnodup
            simp only [List.map_cons, List.nodup_cons] at hnd
            intro hcontra
            apply hnd.1
            rw [← hcontra]
            exact List.mem_map_of_mem Prod.fst hq
          exact hne h)
    rw [show expandPairs rest = rest.flatMap (fun p => (valsOf p.2).map (fun w => (p.1, w)))
      from rfl] at hrest
    rw [hrest]
    simp

/-- Well-formed kvlm value: every key is non-empty and free of space
and newline bytes, keys are distinct, and list values hold at least two
entries.  Every kvlm parsed from an actual commit or tag satisfies
this. -/
def WfKvlm (kv : Kvlm) : Prop :=
  (∀ p ∈ kv.pairs, p.1 ≠ [] ∧ 32 ∉ p.1 ∧ 10 ∉ p.1 ∧ WfVal p.2)
    ∧ (kv.pairs.map Prod.fst).Nodup

instance (kv : Kvlm) : Decidable (WfKvlm kv) := by
  unfold WfKvlm
  infer_instance

/-- Core KVLM round trip: parsing the serialization of a well-formed
kvlm value returns exactly that value. -/
theorem kvlm_roundtrip (kv : Kvlm) (hwf : WfKvlm kv) :
    kvlm_parse (kvlm_serialize kv) = some kv := by
  obtain ⟨hwfp, hnodup⟩ := hwf
  set raw := kvlm_serialize kv with hraw
  have hshape : raw = flatLines (expandPairs kv.pairs)
      ++ 10 :: (if kv.msg = [] then [] else kv.msg) := by
    rw [hraw, kvlm_serialize_eq]
    simp
  have hkeys : ∀ p ∈ expandPairs kv.pairs, p.1 ≠ [] ∧ 32 ∉ p.1 ∧ 10 ∉ p.1 := by
    intro p hp
    rw [expandPairs, List.mem_flatMap] at hp
    obtain ⟨q, hq, hpq⟩ := hp
    rw [List.mem_map] at hpq
    obtain ⟨w, _, rfl⟩ := hpq
    obtain ⟨h1, h2, h3, _⟩ := hwfp q hq
    exact ⟨h1, h2, h3⟩
  have hfuel : raw.length + 2 ≥ (expandPairs kv.pairs).length + 1 := by
    have h1 := flatLines_length_ge (expandPairs kv.pairs)
    have h2 := congrArg List.length hshape
    simp only [List.length_append, List.length_cons] at h2
    omega
  have hgo := kvlmGo_spec (expandPairs kv.pairs) raw
    (if kv.msg = [] then [] else kv.msg) (raw.length + 2) 0 []
    (by rw [List.drop_zero, hshape]) hkeys hfuel
  rw [kvlm_parse]
  rw [show ((0 : Nat) : Int) = (0 : Int) from rfl] at hgo
  rw [hgo]
  have hfold : (expandPairs kv.pairs).foldl
      (fun ps p => dctInsert ps p.1 p.2) [] = kv.pairs := by
    have := foldl_dctInsert_expand kv.pairs []
      (fun p hp => (hwfp p hp).2.2.2) hnodup (by simp)
    rw [show (expandPairs kv.pairs).foldl (fun ps q => dctInsert ps q.1 q.2) []
      = (expandPairs kv.pairs).foldl (fun ps p => dctInsert ps p.1 p.2) [] from rfl] at this
    rw [this]
    simp
  rw [hfold]
  have hmsg : (if kv.msg = [] then [] else kv.msg) = kv.msg := by
    by_cases h : kv.msg = []
    · rw [if_pos h, h]
    · rw [if_neg h]
  rw [hmsg]

/-! ### SHA-1 (`hashlib.sha1(...).hexdigest()` as used by `object_write`) -/

/-- Left-rotation of a 32-bit word. -/
def rotl32 (n k : Nat) : Nat :=
  ((n <<< k) ||| (n >>> (32 - k))) % 4294967296

/-- SHA-1 message padding: `0x80`, zeros to 56 mod 64, then the 64-bit
big-endian bit length. -/
def sha1Pad (msg : List Nat) : List Nat :=
  msg ++ [128] ++ List.replicate ((119 - msg.length % 64) % 64) 0
    ++ toBytesBE (8 * msg.length) 8

/-- Fuel-indexed block splitter (structural, kernel-evaluable). -/
def chunksOf64Go : Nat → List Nat → List (List Nat)
  | 0, _ => []
  | f + 1, l => if l = [] then [] else l.take 64 :: chunksOf64Go f (l.drop 64)

/-- Split into 64-byte blocks. -/
def chunksOf64 (l : List Nat) : List (List Nat) :=
  chunksOf64Go l.length l

/-- The 80-word message schedule of one block. -/
def sha1W (block : List Nat) : List Nat :=
  let w0 := (List.range 16).map (fun i => fromBytesBE ((block.drop (4 * i)).take 4))
  (List.range 64).foldl (fun ws _ =>
    ws ++ [rotl32 ((ws.getD (ws.length - 3) 0) ^^^ (ws.getD (ws.length - 8) 0)
      ^^^ (ws.getD (ws.length - 14) 0) ^^^ (ws.getD (ws.length - 16) 0)) 1]) w0

/-- Round function. -/
def sha1F (i b c d : Nat) : Nat :=
  if i < 20 then (b &&& c) ||| ((b ^^^ 4294967295) &&& d)
  else if i < 40 then b ^^^ c ^^^ d
  else if i < 60 then (b &&& c) ||| (b &&& d) ||| (c &&& d)
  else b ^^^ c ^^^ d

/-- Round constants. -/
def sha1K (i : Nat) : Nat :=
  if i < 20 then 1518500249
  else if i < 40 then 1859775393
  else if i < 60 then 2400959708
  else 3395469782

/-- Process one 64-byte block. -/
def sha1Block (h : Nat × Nat × Nat × Nat × Nat) (block : List Nat) :
    Nat × Nat × Nat × Nat × Nat :=
  let ws := sha1W block
  let st := (List.range 80).foldl (fun st i =>
    let temp := (rotl32 st.1 5 + sha1F i st.2.1 st.2.2.1 st.2.2.2.1
      + st.2.2.2.2 + sha1K i + ws.getD i 0) % 4294967296
    (temp, st.1, rotl32 st.2.1 30, st.2.2.1, st.2.2.2.1)) h
  ((h.1 + st.1) % 4294967296, (h.2.1 + st.2.1) % 4294967296,
   (h.2.2.1 + st.2.2.1) % 4294967296, (h.2.2.2.1 + st.2.2.2.1) % 4294967296,
   (h.2.2.2.2 + st.2.2.2.2) % 4294967296)

/-- The 160-bit SHA-1 digest of a byte string, as a natural number. -/
def sha1 (msg : List Nat) : Nat :=
  let h := (chunksOf64 (sha1Pad msg)).foldl sha1Block
    (1732584193, 4023233417, 2562383102, 271733878, 3285377520)
  (((h.1 * 4294967296 + h.2.1) * 4294967296 + h.2.2.1) * 4294967296
    + h.2.2.2.1) * 4294967296 + h.2.2.2.2

/-- Lowercase hex digit character code. -/
def hexDigit (n : Nat) : Nat := if n < 10 then 48 + n else 87 + n

/-- The 40-character lowercase hex form of a 160-bit number: Python
`hexdigest()` and the tree/index formatting `f"\x7bn:040x\x7d"`. -/
def hex40 (n : Nat) : List Nat :=
  (List.range 40).map (fun i => hexDigit (n / 16 ^ (39 - i) % 16))

/-! ### Object store (`objects.py`): `object_write`, `object_read` -/

/-- The four `GitObject` variants, with their deserialized payloads. -/
inductive GitObj where
  | blob (data : List Nat) : GitObj
  | tree (items : List GitTreeLeaf) : GitObj
  | commit (kv : Kvlm) : GitObj
  | tag (kv : Kvlm) : GitObj
  deriving DecidableEq, Repr

/-- The `fmt` byte string of each variant (`b"blob"` etc.). -/
def fmtBytes : GitObj → List Nat
  | .blob _ => [98, 108, 111, 98]
  | .tree _ => [116, 114, 101, 101]
  | .commit _ => [99, 111, 109, 109, 105, 116]
  | .tag _ => [116, 97, 103]

/-- `obj.serialize()`: blob payload, sorted tree encoding, or kvlm
encoding. -/
def objSerialize : GitObj → List Nat
  | .blob data => data
  | .tree items => tree_serialize items
  | .commit kv => kvlm_serialize kv
  | .tag kv => kvlm_serialize kv

/-- An object store: the filesystem under `.git/objects`, abstracted as
a map from the 40-hex id (equivalently the `xx/xxxx...` path) to the
decompressed file contents (zlib compression is a reversible external
codec, so the id-to-bytes association is what matters). -/
def Store : Type := List Nat → Option (List Nat)

/-- `object_write` (objects.py:125-138): header + payload is hashed;
only when a repo is supplied is the store extended, and only when the
path does not already exist (write-once).  Returns the id and the
possibly-updated store. -/
def object_write (obj : GitObj) (repo : Option Store) : List Nat × Option Store :=
  let data := objSerialize obj
  let full := fmtBytes obj ++ [32] ++ natDecDigits data.length ++ [0] ++ data
  let sha := hex40 (sha1 full)
  match repo with
  | none => (sha, none)
  | some store =>
    if (store sha).isSome then (sha, some store)
    else (sha, some (fun k => if k = sha then some full else store k))

instance {e : Type} {a : Type} [DecidableEq e] [DecidableEq a] : DecidableEq (Except e a) :=
  fun x y =>
    match x, y with
    | .error e1, .error e2 =>
      if h : e1 = e2 then isTrue (by rw [h]) else isFalse (by intro hc; injection hc; contradiction)
    | .ok v1, .ok v2 =>
      if h : v1 = v2 then isTrue (by rw [h]) else isFalse (by intro hc; injection hc; contradiction)
    | .error _, .ok _ => isFalse (by intro hc; injection hc)
    | .ok _, .error _ => isFalse (by intro hc; injection hc)

inductive ObjReadErr where
  | malformed : ObjReadErr
  | unknownType : ObjReadErr
  | valueError : ObjReadErr
  deriving DecidableEq, Repr

/-- `object_read` (objects.py:91-122), given the decompressed file
bytes when the path exists (`none` input = file absent).  Result
`some (.ok none)` is the not-found sentinel; `.error` the raised
exceptions (`valueError` standing for a size field that Python
`int(...)` rejects); outer `none` models deserialization of the
content hanging or raising outside this function. -/
def object_read (rawOpt : Option (List Nat)) : Option (Except ObjReadErr (Option GitObj)) :=
  match rawOpt with
  | none => some (.ok none)
  | some raw =>
    let space := pyFind raw 32 0
    let objType := pySlice raw 0 space
    let nullp := pyFind raw 0 space
    match parseDec (pySlice raw (space + 1) nullp) with
    | none => some (.error .valueError)
    | some size =>
      let content := pySlice raw (nullp + 1) (raw.length : Int)
      if size ≠ content.length then some (.error .malformed)
      else if objType = [99, 111, 109, 109, 105, 116] then
        match kvlm_parse content with
        | none => none
        | some kv => some (.ok (some (.commit kv)))
      else if objType = [116, 114, 101, 101] then
        match tree_parse content with
        | none => none
        | some items => some (.ok (some (.tree items)))
      else if objType = [116, 97, 103] then
        match kvlm_parse content with
        | none => none
        | some kv => some (.ok (some (.tag kv)))
      else if objType = [98, 108, 111, 98] then
        some (.ok (some (.blob content)))
      else some (.error .unknownType)

/-- The filesystem state relevant to `object_read`'s path lookup for one
id: either the id's 2-hex prefix directory `.git/objects/<xx>` is
absent, or it exists and the object file under it either is absent or
holds the given (decompressed) bytes. -/
inductive ObjPath where
  | dirAbsent : ObjPath
  | dirPresent (file : Option (List Nat)) : ObjPath
  deriving DecidableEq, Repr

/-- `repo.repo_file("objects", sha[0:2], sha[2:])` (repository.py:30-33):
`repo_file` returns the joined path only when `repo_dir` on the parent
succeeds, and `repo_dir` with `mkdir=False` (repository.py:35-44)
returns `None` when the directory does not exist.  `some f` stands for
the returned path string (carrying what `isfile`/`open` then find under
it); `none` is Python `None`. -/
def repo_file_objects : ObjPath → Option (Option (List Nat))
  | .dirAbsent => none
  | .dirPresent f => some f

/-- The outcome of `object_read` with its path check included:
`typeError` is the uncaught `TypeError` out of `os.path.isfile(None)`
(that function catches only `OSError`/`ValueError`). -/
inductive ObjReadOutcome where
  | typeError : ObjReadOutcome
  | result (r : Option (Except ObjReadErr (Option GitObj))) : ObjReadOutcome
  deriving DecidableEq, Repr

/-- `object_read` (objects.py:91-122) from the filesystem:
`path = repo.repo_file("objects", sha[0:2], sha[2:])` followed by
`if not os.path.isfile(path): return None` (objects.py:93-95).  When
`repo_file` returned `None` the `isfile` call raises `TypeError`; when
the path names no file the `None` sentinel is returned (the `none` case
of `object_read`); otherwise the decompressed bytes are parsed by
`object_read`. -/
def object_read_fs (fs : ObjPath) : ObjReadOutcome :=
  match repo_file_objects fs with
  | none => .typeError
  | some f => .result (object_read f)

/-! ### Index store (`index.py`): `index_read`, `index_write` -/

structure GitIndexEntry where
  ctime : Nat × Nat
  mtime : Nat × Nat
  dev : Nat
  ino : Nat
  mode_type : Nat
  mode_perms : Nat
  uid : Nat
  gid : Nat
  fsize : Nat
  sha : Nat
  flag_assume_valid : Bool
  flag_stage : Nat
  name : List Nat
  deriving DecidableEq, Repr

structure GitIndex where
  version : Nat
  entries : List GitIndexEntry
  deriving DecidableEq, Repr

/-- The 62 fixed bytes plus name and NUL of one entry, as emitted by
`index_write` (index.py:148-182). -/
def indexEntryBytes (e : GitIndexEntry) : List Nat :=
  toBytesBE e.ctime.1 4 ++ toBytesBE e.ctime.2 4
  ++ toBytesBE e.mtime.1 4 ++ toBytesBE e.mtime.2 4
  ++ toBytesBE e.dev 4 ++ toBytesBE e.ino 4
  ++ toBytesBE (((e.mode_type &&& 15) <<< 12) ||| (e.mode_perms &&& 4095)) 4
  ++ toBytesBE e.uid 4 ++ toBytesBE e.gid 4 ++ toBytesBE e.fsize 4
  ++ toBytesBE e.sha 20
  ++ toBytesBE ((if e.flag_assume_valid then 32768 else 0)
      ||| ((e.flag_stage &&& 3) <<< 12) ||| min e.name.length 4095) 2
  ++ e.name ++ [0]

/-- `while len(body) % 8 != 0: body += b"\x00"` — pads the BODY
(which starts at file offset 12) to a multiple of 8 bytes. -/
def pad8 (body : List Nat) : List Nat :=
  body ++ List.replicate ((8 - body.length % 8) % 8) 0

/-- `index_write` (index.py:134-193): 12-byte header then each entry
appended and padded relative to the body. Returns the file bytes. -/
def index_write (idx : GitIndex) : List Nat :=
  [68, 73, 82, 67] ++ toBytesBE idx.version 4 ++ toBytesBE idx.entries.length 4
  ++ idx.entries.foldl (fun body e => pad8 (body ++ indexEntryBytes e)) []

/-- The entry loop of `index_read` (index.py:72-129).  The cursor `idx`
is an absolute file offset; after each entry it is aligned up to a
multiple of 8 with `idx = 8 * ceil(idx / 8)`. -/
def indexReadGo (raw : List Nat) : Nat → Nat → List GitIndexEntry → List GitIndexEntry
  | 0, _, acc => acc
  | n + 1, idx, acc =>
    let ctime_s := fromBytesBE (pySlice raw (idx : Int) ((idx : Int) + 4))
    let ctime_ns := fromBytesBE (pySlice raw ((idx : Int) + 4) ((idx : Int) + 8))
    let mtime_s := fromBytesBE (pySlice raw ((idx : Int) + 8) ((idx : Int) + 12))
    let mtime_ns := fromBytesBE (pySlice raw ((idx : Int) + 12) ((idx : Int) + 16))
    let dev := fromBytesBE (pySlice raw ((idx : Int) + 16) ((idx : Int) + 20))
    let ino := fromBytesBE (pySlice raw ((idx : Int) + 20) ((idx : Int) + 24))
    let mode := fromBytesBE (pySlice raw ((idx : Int) + 24) ((idx : Int) + 28))
    let uid := fromBytesBE (pySlice raw ((idx : Int) + 28) ((idx : Int) + 32))
    let gid := fromBytesBE (pySlice raw ((idx : Int) + 32) ((idx : Int) + 36))
    let fsize := fromBytesBE (pySlice raw ((idx : Int) + 36) ((idx : Int) + 40))
    let sha := fromBytesBE (pySlice raw ((idx : Int) + 40) ((idx : Int) + 60))
    let flags := fromBytesBE (pySlice raw ((idx : Int) + 60) ((idx : Int) + 62))
    let flagAssume := flags &&& 32768 ≠ 0
    let flagStage := (flags >>> 12) &&& 3
    let nameLen := flags &&& 4095
    let idx2 := idx + 62
    let nameAndNext : List Nat × Nat :=
      if nameLen < 4095 then
        (pySlice raw (idx2 : Int) ((idx2 + nameLen : Nat) : Int), idx2 + nameLen + 1)
      else
        let nullIdx := pyFind raw 0 (idx2 : Int)
        (pySlice raw (idx2 : Int) nullIdx, (nullIdx + 1).toNat)
    let idx4 := 8 * ((nameAndNext.2 + 7) / 8)
    let entry : GitIndexEntry :=
      { ctime := (ctime_s, ctime_ns), mtime := (mtime_s, mtime_ns),
        dev := dev, ino := ino,
        mode_type := (mode >>> 12) &&& 15, mode_perms := mode &&& 4095,
        uid := uid, gid := gid, fsize := fsize, sha := sha,
        flag_assume_valid := flagAssume, flag_stage := flagStage,
        name := nameAndNext.1 }
    indexReadGo raw n idx4 (acc ++ [entry])

/-- `index_read` (index.py:51-131), given the file bytes: checks the
`DIRC` signature and version 2, then parses the declared number of
entries; `none` models the raised exceptions. -/
def index_read (raw : List Nat) : Option GitIndex :=
  if raw.take 4 ≠ [68, 73, 82, 67] then none
  else
    let version := fromBytesBE (pySlice raw 4 8)
    if version ≠ 2 then none
    else
      let num := fromBytesBE (pySlice raw 8 12)
      some ⟨version, indexReadGo raw num 12 []⟩

/-! ### Reference resolution loop (`objects.py`: `object_find`) -/

inductive FindErr where
  | noSuchRef : FindErr
  | ambiguousRef : FindErr
  | attrNoneFmt : FindErr
  | attrListDecode : FindErr
  | keyError : FindErr
  deriving DecidableEq, Repr

/-- Python dict lookup on the ordered kvlm pairs. -/
def kvGet : List (List Nat × KvVal) → List Nat → Option KvVal
  | [], _ => none
  | (k', v') :: rest, k => if k' = k then some v' else kvGet rest k

/-- The `while True` loop of `object_find` (objects.py:203-218), with
the object store abstracted as a map from id to the (successfully
read) object; `none` at an id models `object_read` returning its
not-found sentinel `None`, upon which the loop's unguarded `obj.fmt`
raises `AttributeError` (`attrNoneFmt`).  A list-valued `object`/`tree`
field would make `.decode("ascii")` raise `AttributeError` too
(`attrListDecode`); a missing field raises `KeyError`.  The outer
`none` models non-termination (a reference cycle). -/
def objectFindGo (store : List Nat → Option GitObj) :
    Nat → List Nat → List Nat → Bool → Option (Except FindErr (Option (List Nat)))
  | 0, _, _, _ => none
  | fuel + 1, sha, fmt, follow =>
    match store sha with
    | none => some (.error .attrNoneFmt)
    | some obj =>
      if fmtBytes obj = fmt then some (.ok (some sha))
      else if !follow then some (.ok none)
      else
        match obj with
        | .tag kv =>
          match kvGet kv.pairs [111, 98, 106, 101, 99, 116] with
          | some (.str s) => objectFindGo store fuel s fmt follow
          | some (.lst _) => some (.error .attrListDecode)
          | none => some (.error .keyError)
        | .commit kv =>
          if fmt = [116, 114, 101, 101] then
            match kvGet kv.pairs [116, 114, 101, 101] with
            | some (.str s) => objectFindGo store fuel s fmt follow
            | some (.lst _) => some (.error .attrListDecode)
            | none => some (.error .keyError)
          else some (.ok none)
        | _ => some (.ok none)

/-- `object_find` (objects.py:185-218), with name resolution
(`object_resolve`, a filesystem walk) abstracted as the candidate list
it returns: zero candidates raise "No such reference", several raise
"Ambiguous reference", and with no wanted format the single candidate
is returned unexamined. -/
def object_find (shalist : List (List Nat)) (store : List Nat → Option GitObj)
    (fmt : Option (List Nat)) (follow : Bool) (fuel : Nat) :
    Option (Except FindErr (Option (List Nat))) :=
  match shalist with
  | [] => some (.error .noSuchRef)
  | [sha] =>
    match fmt with
    | none => some (.ok (some sha))
    | some f => objectFindGo store fuel sha f follow
  | _ => some (.error .ambiguousRef)

/-! ### Supporting lemmas for `object_read` and truncated tree records -/

theorem pyFind_eq0 {raw xs ys : List Nat} {b : Nat}
    (h : raw = xs ++ b :: ys) (hb : b ∉ xs) :
    pyFind raw b 0 = (xs.length : Int) := by
  have := pyFind_eq 0 (r := raw) (by simpa using h) hb
  simpa using this

theorem pySlice_of_drop0 {raw l tail : List Nat}
    (h : raw = l ++ tail) :
    pySlice raw 0 (l.length : Int) = l := by
  have := pySlice_of_drop 0 (r := raw) (l := l) (t := tail) (by simpa using h)
  simpa using this

/-- A slice whose right endpoint clamps past the end returns the whole
remaining suffix. -/
theorem pySlice_clamped {raw tail : List Nat} (a k : Nat)
    (h : raw.drop a = tail) (hk : tail.length ≤ k) :
    pySlice raw (a : Int) ((a + k : Nat) : Int) = tail := by
  have hlen : raw.length ≤ a + tail.length := by
    have := congrArg List.length h
    simp only [List.length_drop] at this
    omega
  by_cases hc : a ≤ raw.length
  · rw [pySlice, sliceIdx_ofNat, sliceIdx_ofNat, Nat.min_eq_left hc,
      Nat.min_eq_right (by omega), h]
    apply List.take_of_length_le
    have := congrArg List.length h
    simp only [List.length_drop] at this
    omega
  · have hd : raw.drop a = [] := List.drop_eq_nil_of_le (by omega)
    rw [hd] at h
    subst h
    rw [pySlice, sliceIdx_ofNat, sliceIdx_ofNat, Nat.min_eq_right (by omega),
      Nat.min_eq_right (by omega)]
    simp

/-- `object_read` on a byte string with a canonical header reduces to
the size check followed by the type dispatch. -/
theorem object_read_header (t content : List Nat) (n : Nat) (h32 : 32 ∉ t) :
    object_read (some (t ++ [32] ++ natDecDigits n ++ [0] ++ content))
      = (if n ≠ content.length then some (.error .malformed)
         else if t = [99, 111, 109, 109, 105, 116] then
           (match kvlm_parse content with
            | none => none
            | some kv => some (.ok (some (.commit kv))))
         else if t = [116, 114, 101, 101] then
           (match tree_parse content with
            | none => none
            | some items => some (.ok (some (.tree items))))
         else if t = [116, 97, 103] then
           (match kvlm_parse content with
            | none => none
            | some kv => some (.ok (some (.tag kv))))
         else if t = [98, 108, 111, 98] then some (.ok (some (.blob content)))
         else some (.error .unknownType)) := by
  set raw := t ++ [32] ++ natDecDigits n ++ [0] ++ content with hraw
  have hshape : raw = t ++ 32 :: (natDecDigits n ++ 0 :: content) := by
    rw [hraw]
    simp
  have hspace : pyFind raw 32 0 = (t.length : Int) := pyFind_eq0 hshape h32
  have htype : pySlice raw 0 (t.length : Int) = t := by
    have : raw = t ++ (32 :: (natDecDigits n ++ 0 :: content)) := hshape
    exact pySlice_of_drop0 this
  have hdropt : raw.drop t.length = (32 :: natDecDigits n) ++ 0 :: content := by
    have := drop_add_of_drop_eq (s := 0) (x := t)
      (by simpa using hshape)
    simpa using this
  have hnodig : (0 : Nat) ∉ 32 :: natDecDigits n := by
    intro hmem
    rcases List.mem_cons.mp hmem with hcontra | hcontra
    · omega
    · have := natDecDigits_all_digits n 0 hcontra
      omega
  have hnull : pyFind raw 0 (t.length : Int)
      = ((t.length + (natDecDigits n).length + 1 : Nat) : Int) := by
    have := pyFind_eq t.length hdropt hnodig
    have harith : t.length + (32 :: natDecDigits n).length
        = t.length + (natDecDigits n).length + 1 := by
      simp only [List.length_cons]
      omega
    rw [harith] at this
    exact this
  have hdropd : raw.drop (t.length + 1) = natDecDigits n ++ 0 :: content := by
    have := drop_add_of_drop_eq (s := t.length) (x := [32])
      (show raw.drop t.length = [32] ++ (natDecDigits n ++ 0 :: content) by
        simpa using hdropt)
    simpa using this
  have hsize : pySlice raw ((t.length : Int) + 1)
      ((t.length + (natDecDigits n).length + 1 : Nat) : Int) = natDecDigits n := by
    have hc1 : ((t.length : Int) + 1) = ((t.length + 1 : Nat) : Int) := by push_cast; ring
    have hc2 : ((t.length + (natDecDigits n).length + 1 : Nat) : Int)
        = ((t.length + 1 + (natDecDigits n).length : Nat) : Int) := by push_cast; ring
    rw [hc1, hc2]
    exact pySlice_of_drop _ (by rw [hdropd])
  have hdropc : raw.drop (t.length + (natDecDigits n).length + 1 + 1) = content := by
    have := drop_add_of_drop_eq (s := t.length + 1) (x := natDecDigits n ++ [0])
      (show raw.drop (t.length + 1) = (natDecDigits n ++ [0]) ++ content by
        rw [hdropd]; simp)
    rw [← this]
    congr 1
    simp only [List.length_append, List.length_cons, List.length_nil]
    omega
  have hcontent : pySlice raw
      (((t.length + (natDecDigits n).length + 1 : Nat) : Int) + 1) (raw.length : Int)
      = content := by
    have hc1 : (((t.length + (natDecDigits n).length + 1 : Nat) : Int) + 1)
        = ((t.length + (natDecDigits n).length + 1 + 1 : Nat) : Int) := by push_cast; ring
    rw [hc1, pySlice_to_end, hdropc]
  simp only [object_read, hspace, htype, hnull, hsize, parseDec_natDecDigits, hcontent]

/-- A tree record with fewer than 20 id bytes still parses into an
entry: the slice for the id clamps at the end of input, and the
resulting position is past the end, ending the loop. -/
theorem tree_parse_truncated (mode path shaBytes : List Nat)
    (hm : 32 ∉ mode) (hp : 0 ∉ path) (hs : shaBytes.length < 20) :
    tree_parse (mode ++ [32] ++ path ++ [0] ++ shaBytes)
      = some [⟨mode, path, fromBytesBE shaBytes⟩] := by
  set raw := mode ++ [32] ++ path ++ [0] ++ shaBytes with hraw
  have hshape : raw = mode ++ 32 :: (path ++ 0 :: shaBytes) := by
    rw [hraw]
    simp
  have hlen : raw.length = mode.length + path.length + 2 + shaBytes.length := by
    rw [hshape]
    simp only [List.length_append, List.length_cons]
    omega
  have hx : pyFind raw 32 0 = (mode.length : Int) := pyFind_eq0 hshape hm
  have hmode : pySlice raw 0 (mode.length : Int) = mode := pySlice_of_drop0 hshape
  have hdropm : raw.drop mode.length = (32 :: path) ++ 0 :: shaBytes := by
    have := drop_add_of_drop_eq (s := 0) (x := mode) (by simpa using hshape)
    simpa using this
  have hy : pyFind raw 0 (mode.length : Int)
      = ((mode.length + path.length + 1 : Nat) : Int) := by
    have h0 : (0 : Nat) ∉ 32 :: path := by
      intro hmem
      rcases List.mem_cons.mp hmem with h | h
      · omega
      · exact hp h
    have := pyFind_eq mode.length hdropm h0
    have harith : mode.length + (32 :: path).length = mode.length + path.length + 1 := by
      simp only [List.length_cons]
      omega
    rw [harith] at this
    exact this
  have hdropp : raw.drop (mode.length + 1) = path ++ 0 :: shaBytes := by
    have := drop_add_of_drop_eq (s := mode.length) (x := [32])
      (show raw.drop mode.length = [32] ++ (path ++ 0 :: shaBytes) by simpa using hdropm)
    simpa using this
  have hpath : pySlice raw ((mode.length : Int) + 1)
      ((mode.length + path.length + 1 : Nat) : Int) = path := by
    have hc1 : ((mode.length : Int) + 1) = ((mode.length + 1 : Nat) : Int) := by
      push_cast; ring
    have hc2 : ((mode.length + path.length + 1 : Nat) : Int)
        = ((mode.length + 1 + path.length : Nat) : Int) := by push_cast; ring
    rw [hc1, hc2]
    exact pySlice_of_drop _ (by rw [hdropp])
  have hdrops : raw.drop (mode.length + path.length + 2) = shaBytes := by
    have := drop_add_of_drop_eq (s := mode.length + 1) (x := path ++ [0])
      (show raw.drop (mode.length + 1) = (path ++ [0]) ++ shaBytes by
        rw [hdropp]; simp)
    rw [← this]
    congr 1
    simp only [List.length_append, List.length_cons, List.length_nil]
    omega
  have hsha : pySlice raw (((mode.length + path.length + 1 : Nat) : Int) + 1)
      (((mode.length + path.length + 1 : Nat) : Int) + 21) = shaBytes := by
    have hc1 : (((mode.length + path.length + 1 : Nat) : Int) + 1)
        = ((mode.length + path.length + 2 : Nat) : Int) := by push_cast; ring
    have hc2 : (((mode.length + path.length + 1 : Nat) : Int) + 21)
        = ((mode.length + path.length + 2 + 20 : Nat) : Int) := by push_cast; ring
    rw [hc1, hc2]
    exact pySlice_clamped _ 20 hdrops (by omega)
  have hone : tree_parse_one raw 0
      = (((mode.length + path.length + 1 : Nat) : Int) + 21, ⟨mode, path, fromBytesBE shaBytes⟩) := by
    rw [tree_parse_one]
    rw [hx, hmode, hy, hpath, hsha]
  rw [tree_parse]
  rw [show raw.length + 2 = (raw.length + 1) + 1 from rfl]
  rw [treeParseGo]
  rw [if_pos (by rw [hlen]; push_cast; omega)]
  simp only [hone]
  rw [treeParseGo]
  rw [if_neg (by rw [hlen]; push_cast; omega)]
  simp

/-- Evaluation of `List.mergeSort` on a two-element list (the
well-founded definition does not reduce in the kernel, so concrete
serializations are computed through this equation). -/
theorem mergeSort_pair {α : Type} (le : α → α → Bool) (x y : α) :
    List.mergeSort [x, y] le = if le x y then [x, y] else [y, x] := by
  rw [List.mergeSort]
  simp [List.splitInTwo, List.splitAt_eq, List.merge]

/-! ## The claims -/

/-- Example tree leaves and bytes used by concrete counterexamples. -/
def leafB : GitTreeLeaf := ⟨[49, 48, 48, 54, 52, 52], [98], 1⟩

def leafA : GitTreeLeaf := ⟨[49, 48, 48, 54, 52, 52], [97], 2⟩

/-- Two file entries in the order `b`, `a` — decodes fine, but
re-encoding sorts them. -/
def rawUnsorted : List Nat := encLeaf leafB ++ encLeaf leafA

/-- C1 counterexample: `rawUnsorted` decodes successfully as a tree,
but re-encoding the decoded value sorts the entries and yields
different bytes, so encode(decode(bytes)) = bytes fails for it. -/
theorem claim_C1_counterexample :
    tree_parse rawUnsorted = some [leafB, leafA]
      ∧ tree_serialize [leafB, leafA] ≠ rawUnsorted := by
  have hser : tree_serialize [leafB, leafA] = encLeaf leafA ++ encLeaf leafB := by
    rw [tree_serialize_eq_flatMap, mergeSort_pair, if_neg (by decide)]
    simp
  constructor
  · decide
  · rw [hser]
    decide

/-- C1 (amended): for every byte string in canonical form — the
serialization of well-formed tree entries (no space in modes, no NUL
in paths, 20-byte ids), or of a well-formed kvlm value (non-empty
keys free of space/newline, distinct keys, multi-value lists of length
at least two) — re-encoding the decoded value yields exactly the
original bytes. -/
theorem claim_C1 :
    (∀ raw : List Nat,
      (∃ items, (∀ l ∈ items, WfLeaf l) ∧ raw = tree_serialize items) →
      ∃ l, tree_parse raw = some l ∧ tree_serialize l = raw)
    ∧ (∀ raw : List Nat,
      (∃ kv, WfKvlm kv ∧ raw = kvlm_serialize kv) →
      ∃ kv2, kvlm_parse raw = some kv2 ∧ kvlm_serialize kv2 = raw) := by
  constructor
  · rintro raw ⟨items, hwf, rfl⟩
    obtain ⟨h1, h2⟩ := tree_roundtrip items hwf
    exact ⟨items.mergeSort keyLeB, h1, h2⟩
  · rintro raw ⟨kv, hwf, rfl⟩
    exact ⟨kv, kvlm_roundtrip kv hwf, rfl⟩

/-- Concrete canonical inputs for the C1 witness. -/
def kvWit : Kvlm := ⟨[([116, 114, 101, 101], .str [97])], [109]⟩

/-- C1 witness: the amended round trip at concrete canonical inputs. -/
theorem claim_C1_witness :
    (∃ l, tree_parse (tree_serialize [leafA, leafB]) = some l
      ∧ tree_serialize l = tree_serialize [leafA, leafB])
    ∧ (∃ kv2, kvlm_parse (kvlm_serialize kvWit) = some kv2
      ∧ kvlm_serialize kv2 = kvlm_serialize kvWit) :=
  ⟨claim_C1.1 _ ⟨[leafA, leafB], by decide, rfl⟩,
   claim_C1.2 _ ⟨kvWit, ⟨by decide, by decide⟩, rfl⟩⟩

/-- The sort key as the frozen claim (and spec section 9) words it:
any mode beginning with "10" sorts as the plain name, every other mode
as the name with a slash appended. -/
def sortKeySpecClaim (leaf : GitTreeLeaf) : List Nat :=
  if leaf.mode.take 2 = [49, 48] then leaf.path else leaf.path ++ [47]

/-- A symlink-mode entry (`120000`). -/
def leafSym : GitTreeLeaf := ⟨[49, 50, 48, 48, 48, 48], [97], 0⟩

/-- C5 counterexample: for the symlink mode `120000` the code's
`sort_key` returns the name verbatim (it only appends a slash for
modes starting `"04"`), while the claim's key appends a slash to every
mode not starting `"10"`. -/
theorem claim_C5_counterexample :
    sort_key leafSym = [97]
      ∧ sortKeySpecClaim leafSym = [97, 47]
      ∧ sort_key leafSym ≠ sortKeySpecClaim leafSym := by
  refine ⟨by decide, by decide, by decide⟩

/-- The sort key as amended: a slash is appended exactly for modes
beginning with "04"; every other mode — files, symlinks, gitlinks —
sorts by the name verbatim. -/
def sortKeySpecAmended (leaf : GitTreeLeaf) : List Nat :=
  if List.isPrefixOf [48, 52] leaf.mode then leaf.path ++ [47] else leaf.path

/-- C5 (amended): the serializer's sort key appends a slash exactly
when the mode begins with "04" (treating symlink and gitlink modes as
plain names), and `tree_serialize` emits the entries in the stable
order of that key. -/
theorem claim_C5 :
    (∀ leaf : GitTreeLeaf, sort_key leaf = sortKeySpecAmended leaf)
    ∧ (∀ items : List GitTreeLeaf,
        tree_serialize items = (items.mergeSort keyLeB).flatMap encLeaf) := by
  have hkey : ∀ m : List Nat,
      List.isPrefixOf [48, 52] m = true ↔ m.take 2 = [48, 52] := by
    intro m
    rw [List.isPrefixOf_iff_prefix, List.prefix_iff_eq_take]
    constructor
    · intro h
      simp only [List.length_cons, List.length_nil] at h
      exact h.symm
    · intro h
      simp only [List.length_cons, List.length_nil]
      exact h.symm
  constructor
  · intro leaf
    rw [sort_key, sortKeySpecAmended]
    by_cases h : leaf.mode.take 2 = [48, 52]
    · rw [if_pos h, if_pos ((hkey leaf.mode).mpr h)]
    · rw [if_neg h, if_neg (fun hc => h ((hkey leaf.mode).mp hc))]
  · exact tree_serialize_eq_flatMap

/-- Raw commit bytes with two `parent` headers and a two-line
message. -/
def rawCommitEx : List Nat :=
  [116, 114, 101, 101, 32, 97, 97, 97, 97, 10]
  ++ [112, 97, 114, 101, 110, 116, 32, 98, 98, 98, 98, 10]
  ++ [112, 97, 114, 101, 110, 116, 32, 99, 99, 99, 99, 10]
  ++ [10]
  ++ [108, 105, 110, 101, 49, 10, 108, 105, 110, 101, 50, 10]

/-- The kvlm value `rawCommitEx` parses to. -/
def kvCommitEx : Kvlm :=
  ⟨[([116, 114, 101, 101], .str [97, 97, 97, 97]),
    ([112, 97, 114, 101, 110, 116], .lst [[98, 98, 98, 98], [99, 99, 99, 99]])],
   [108, 105, 110, 101, 49, 10, 108, 105, 110, 101, 50, 10]⟩

/-- C6: for raw commit bytes whose parse is a well-formed kvlm value
(as every actual commit body is) with a multi-valued header and a
multi-line message, decode(encode(decode(raw))) = decode(raw). -/
theorem claim_C6 (raw : List Nat) (kv : Kvlm)
    (hparse : kvlm_parse raw = some kv)
    (hwf : WfKvlm kv)
    (hmulti : kv.pairs.any (fun p => match p.2 with | .lst _ => true | _ => false) = true)
    (hmsgml : (10 : Nat) ∈ kv.msg) :
    kvlm_parse (kvlm_serialize kv) = kvlm_parse raw := by
  rw [kvlm_roundtrip kv hwf, hparse]

/-- C6 witness: the commit bytes with two parents and a two-line
message. -/
theorem claim_C6_witness :
    kvlm_parse (kvlm_serialize kvCommitEx) = kvlm_parse rawCommitEx :=
  claim_C6 rawCommitEx kvCommitEx (by decide) (by decide) (by decide) (by decide)

/-- A tree record whose id field is truncated to 19 bytes. -/
def rawTruncated : List Nat :=
  [49, 48, 48, 54, 52, 52] ++ [32] ++ [97] ++ [0] ++ List.replicate 19 0

/-- C7 counterexample: a record with only 19 id bytes is not rejected —
`tree_parse` silently yields an entry for it. -/
theorem claim_C7_counterexample :
    tree_parse rawTruncated = some [⟨[49, 48, 48, 54, 52, 52], [97], 0⟩] := by
  decide

/-- C7 (amended): tree decoding stops as soon as the parse position
reaches or passes the end of the input, but malformed records are NOT
fatal: a record with fewer than 20 id bytes remaining still yields an
entry, its id read from whatever bytes remain, and the parse returns
without error. -/
theorem claim_C7 :
    (∀ (raw : List Nat) (fuel : Nat) (pos : Int) (acc : List GitTreeLeaf),
      (raw.length : Int) ≤ pos → treeParseGo raw (fuel + 1) pos acc = some acc)
    ∧ (∀ mode path shaBytes : List Nat, 32 ∉ mode → 0 ∉ path →
      shaBytes.length < 20 →
      tree_parse (mode ++ [32] ++ path ++ [0] ++ shaBytes)
        = some [⟨mode, path, fromBytesBE shaBytes⟩]) := by
  constructor
  · intro raw fuel pos acc hpos
    rw [treeParseGo, if_neg (by omega)]
  · exact tree_parse_truncated

/-- C7 witness: the loop stops at an exhausted position, and the
19-byte-id record yields its entry. -/
theorem claim_C7_witness :
    treeParseGo [49, 48] 3 2 [] = some []
      ∧ tree_parse ([52, 48] ++ [32] ++ [99] ++ [0] ++ [1])
        = some [⟨[52, 48], [99], fromBytesBE [1]⟩] :=
  ⟨claim_C7.1 [49, 48] 2 2 [] (by decide),
   claim_C7.2 [52, 48] [99] [1] (by decide) (by decide) (by decide)⟩

/-- A tree record with the 5-character short directory mode `40000`. -/
def rawShortMode : List Nat :=
  [52, 48, 48, 48, 48] ++ [32] ++ [100] ++ [0] ++ List.replicate 20 7

/-- C8 counterexample: the record with 5-character mode `40000`
decodes to an entry whose mode is still the verbatim 5 characters —
no leading space is prepended (the source's `if len(mode) == 5` body
is `pass`), so the normalized 6-character mode the claim requires does
not appear. -/
theorem claim_C8_counterexample :
    tree_parse rawShortMode
      = some [⟨[52, 48, 48, 48, 48], [100], fromBytesBE (List.replicate 20 7)⟩]
      ∧ [52, 48, 48, 48, 48] ≠ [32, 52, 48, 48, 48, 48]
      ∧ ([52, 48, 48, 48, 48] : List Nat).length = 5 := by
  refine ⟨by decide, by decide, by decide⟩

/-- C8 (amended): a 5-character mode is carried through decoding
verbatim — no space padding — and re-encodes as the same 5
characters, so the record round-trips with its short mode intact. -/
theorem claim_C8 (leaf : GitTreeLeaf) (hwf : WfLeaf leaf)
    (h5 : leaf.mode.length = 5) :
    tree_parse (encLeaf leaf) = some [leaf]
      ∧ tree_serialize [leaf] = encLeaf leaf := by
  constructor
  · have := tree_parse_flatMap [leaf] (by
      intro l hl
      rw [List.mem_singleton.mp hl]
      exact hwf)
    simpa using this
  · rw [tree_serialize_eq_flatMap]
    simp

/-- C8 witness: the concrete `40000`-mode directory entry decodes and
re-encodes with its mode unchanged at 5 characters. -/
theorem claim_C8_witness :
    tree_parse (encLeaf ⟨[52, 48, 48, 48, 48], [100], 7⟩)
      = some [⟨[52, 48, 48, 48, 48], [100], 7⟩]
      ∧ tree_serialize [⟨[52, 48, 48, 48, 48], [100], 7⟩]
        = encLeaf ⟨[52, 48, 48, 48, 48], [100], 7⟩ :=
  claim_C8 ⟨[52, 48, 48, 48, 48], [100], 7⟩ (by decide) (by decide)

/-- An all-zero-metadata index entry with a one-byte name. -/
def entC2 : GitIndexEntry :=
  { ctime := (0, 0), mtime := (0, 0), dev := 0, ino := 0,
    mode_type := 8, mode_perms := 420, uid := 0, gid := 0, fsize := 0,
    sha := 0, flag_assume_valid := false, flag_stage := 0, name := [97] }

set_option maxRecDepth 40000 in
/-- C2 (code bug evidence): a single entry round-trips, but an index of
two entries does not — `index_write` pads the body (which begins at
file offset 12) to 8-byte multiples, while `index_read` aligns its
absolute file offset to 8-byte multiples, so the reader resumes 4
bytes past where the writer placed the second record and reads back
garbage. -/
theorem claim_C2_failing :
    index_read (index_write ⟨2, [entC2]⟩) = some ⟨2, [entC2]⟩
      ∧ index_read (index_write ⟨2, [entC2, entC2]⟩) ≠ some ⟨2, [entC2, entC2]⟩ := by
  constructor
  · decide
  · decide

/-- Payload `b"hello\n"` and the exact bytes Python hashes,
`b"blob 6\x00hello\n"`. -/
def helloData : List Nat := [104, 101, 108, 108, 111, 10]

def helloFull : List Nat := [98, 108, 111, 98, 32, 54, 0] ++ helloData

set_option maxRecDepth 200000 in
/-- C3: hashing the blob `b"hello\n"` through `object_write` returns
exactly the 40-hex SHA-1 of `b"blob 6\x00hello\n"`, namely
`ce013625030ba8dba906f756967f9e9ca394464a`, and the returned id does
not depend on whether a destination repository is supplied. -/
theorem claim_C3 (repo : Option Store) :
    (object_write (.blob helloData) repo).1 = hex40 (sha1 helloFull)
      ∧ (object_write (.blob helloData) repo).1
        = [99, 101, 48, 49, 51, 54, 50, 53, 48, 51, 48, 98, 97, 56, 100, 98,
           97, 57, 48, 54, 102, 55, 53, 54, 57, 54, 55, 102, 57, 101, 57, 99,
           97, 51, 57, 52, 52, 54, 52, 97] := by
  cases repo with
  | none => exact ⟨by decide, by decide⟩
  | some store =>
    have hproj : ∀ (c : Prop) (inst : Decidable c) (a : List Nat) (x y : Option Store),
        (if c then (a, x) else (a, y)).1 = a := by
      intro c inst a x y
      split
      · rfl
      · rfl
    constructor
    · rw [object_write]
      rw [hproj]
      decide
    · rw [object_write]
      rw [hproj]
      decide

/-- C4: the claim's first clause fails on the program.  When "no file
exists for the given id" because the id's 2-hex prefix directory
`.git/objects/<xx>` is absent, `repo_file` returns `None` and
`os.path.isfile(None)` (objects.py:94) raises `TypeError` instead of
returning the not-found sentinel the claim (and spec) promise; the
sentinel is returned only when the prefix directory exists but the
file is absent.  The other two clauses hold: for a canonical header
"malformed object" is raised exactly when the declared decimal size
differs from the remaining payload length, and (when the size agrees)
"unknown type" for any tag other than blob, tree, commit, tag. -/
theorem claim_C4 :
    (object_read_fs .dirAbsent = .typeError
      ∧ object_read_fs .dirAbsent ≠ .result (some (.ok none)))
    ∧ object_read_fs (.dirPresent none) = .result (some (.ok none))
    ∧ (∀ (t content : List Nat) (n : Nat), 32 ∉ t → n ≠ content.length →
        object_read_fs (.dirPresent (some (t ++ [32] ++ natDecDigits n ++ [0] ++ content)))
          = .result (some (.error .malformed)))
    ∧ (∀ (t content : List Nat), 32 ∉ t →
        t ≠ [98, 108, 111, 98] → t ≠ [116, 114, 101, 101] →
        t ≠ [99, 111, 109, 109, 105, 116] → t ≠ [116, 97, 103] →
        object_read_fs (.dirPresent (some (t ++ [32] ++ natDecDigits content.length ++ [0]
          ++ content)))
          = .result (some (.error .unknownType))) := by
  refine ⟨⟨rfl, by decide⟩, rfl, ?_, ?_⟩
  · intro t content n h32 hne
    have h := object_read_header t content n h32
    rw [if_pos hne] at h
    simp only [object_read_fs, repo_file_objects, h]
  · intro t content h32 hblob htree hcommit htag
    have h := object_read_header t content content.length h32
    rw [if_neg (by omega), if_neg hcommit, if_neg htree, if_neg htag, if_neg hblob] at h
    simp only [object_read_fs, repo_file_objects, h]

/-- C4 witness: a blob declaring size 5 over a 3-byte payload is
malformed; a `wat`-typed object with a correct size is unknown. -/
theorem claim_C4_witness :
    object_read_fs (.dirPresent (some ([98, 108, 111, 98] ++ [32] ++ natDecDigits 5 ++ [0]
        ++ [97, 98, 99])))
        = .result (some (.error .malformed))
    ∧ object_read_fs (.dirPresent (some ([119, 97, 116] ++ [32]
        ++ natDecDigits ([97] : List Nat).length ++ [0] ++ [97])))
        = .result (some (.error .unknownType)) :=
  ⟨claim_C4.2.2.1 [98, 108, 111, 98] [97, 98, 99] 5 (by decide) (by decide),
   claim_C4.2.2.2 [119, 97, 116] [97] (by decide) (by decide) (by decide) (by decide) (by decide)⟩

/-- A store holding only one blob under id `"b"`. -/
def storeC9 : List Nat → Option GitObj :=
  fun s => if s = [98] then some (.blob []) else none

/-- C9 counterexample: resolving a blob id with wanted type tree makes
`object_find` return the `None` sentinel — it does NOT produce the "no
such reference" error the claim (and spec section 8) promises. -/
theorem claim_C9_counterexample :
    object_find [[98]] storeC9 (some [116, 114, 101, 101]) true 5
      = some (.ok none)
    ∧ (some (Except.ok none) : Option (Except FindErr (Option (List Nat))))
      ≠ some (.error .noSuchRef) := by
  exact ⟨by decide, by decide⟩

/-- C9 (amended): type-directed follow-through works as claimed for
tag-to-commit and commit-to-tree, but a blob id resolved with wanted
type tree yields the nothing/`None` outcome, not a "no such
reference" error. -/
theorem claim_C9 (store : List Nat → Option GitObj)
    (tSha cSha trSha bSha : List Nat) (kvT kvC : Kvlm)
    (items : List GitTreeLeaf) (bdata : List Nat) (fuel : Nat)
    (ht : store tSha = some (.tag kvT))
    (hto : kvGet kvT.pairs [111, 98, 106, 101, 99, 116] = some (.str cSha))
    (hc : store cSha = some (.commit kvC))
    (hct : kvGet kvC.pairs [116, 114, 101, 101] = some (.str trSha))
    (htr : store trSha = some (.tree items))
    (hb : store bSha = some (.blob bdata)) :
    object_find [tSha] store (some [99, 111, 109, 109, 105, 116]) true (fuel + 1 + 1)
      = some (.ok (some cSha))
    ∧ object_find [cSha] store (some [116, 114, 101, 101]) true (fuel + 1 + 1)
      = some (.ok (some trSha))
    ∧ object_find [bSha] store (some [116, 114, 101, 101]) true (fuel + 1)
      = some (.ok none) := by
  refine ⟨?_, ?_, ?_⟩
  · show objectFindGo store (fuel + 1 + 1) tSha [99, 111, 109, 109, 105, 116] true
      = some (.ok (some cSha))
    simp [objectFindGo, ht, hto, hc, fmtBytes]
  · show objectFindGo store (fuel + 1 + 1) cSha [116, 114, 101, 101] true
      = some (.ok (some trSha))
    simp [objectFindGo, hc, hct, htr, fmtBytes]
  · show objectFindGo store (fuel + 1) bSha [116, 114, 101, 101] true
      = some (.ok none)
    simp [objectFindGo, hb, fmtBytes]

/-- The tag/commit/tree/blob chain used by the C9 witness. -/
def storeC9W : List Nat → Option GitObj := fun s =>
  if s = [116] then some (.tag ⟨[([111, 98, 106, 101, 99, 116], .str [99])], []⟩)
  else if s = [99] then some (.commit ⟨[([116, 114, 101, 101], .str [114])], []⟩)
  else if s = [114] then some (.tree [])
  else if s = [98] then some (.blob [])
  else none

/-- C9 witness: the three follow-through scenarios at a concrete
store. -/
theorem claim_C9_witness :
    object_find [[116]] storeC9W (some [99, 111, 109, 109, 105, 116]) true (0 + 1 + 1)
      = some (.ok (some [99]))
    ∧ object_find [[99]] storeC9W (some [116, 114, 101, 101]) true (0 + 1 + 1)
      = some (.ok (some [114]))
    ∧ object_find [[98]] storeC9W (some [116, 114, 101, 101]) true (0 + 1)
      = some (.ok none) :=
  claim_C9 storeC9W [116] [99] [114] [98]
    ⟨[([111, 98, 106, 101, 99, 116], .str [99])], []⟩
    ⟨[([116, 114, 101, 101], .str [114])], []⟩ [] [] 0
    (by decide) (by decide) (by decide) (by decide) (by decide) (by decide)

/-- A store whose only object is a tag pointing at the absent id
`"m"`. -/
def storeC10 : List Nat → Option GitObj := fun s =>
  if s = [116] then some (.tag ⟨[([111, 98, 106, 101, 99, 116], .str [109])], []⟩)
  else none

/-- C10 counterexample: the claim's precondition ("every resolved
candidate id is present in the object store") holds — the single
candidate `"t"` is present — yet the unchecked `obj.fmt` failure
branch IS reached, because the follow step moves to the tag's absent
target: the loop leaves the candidate set, so presence of the
candidates alone does not make the branch unreachable. -/
theorem claim_C10_counterexample :
    (storeC10 [116]).isSome = true
    ∧ object_find [[116]] storeC10 (some [99, 111, 109, 109, 105, 116]) true 5
      = some (.error .attrNoneFmt) := by
  exact ⟨by decide, by decide⟩

/-- Closure of a store under the two follow steps of `object_find`:
every tag's `object` target and every commit's `tree` target that the
loop could move to is itself present. -/
def StoreClosed (store : List Nat → Option GitObj) : Prop :=
  ∀ (sha : List Nat) (kv : Kvlm) (s : List Nat),
    (store sha = some (.tag kv) →
      kvGet kv.pairs [111, 98, 106, 101, 99, 116] = some (.str s) →
      (store s).isSome)
    ∧ (store sha = some (.commit kv) →
      kvGet kv.pairs [116, 114, 101, 101] = some (.str s) →
      (store s).isSome)

/-- C10 (amended): when the current id has no backing object,
`object_read` returns the `None` sentinel and the find loop's
unguarded `obj.fmt` fails with an untyped `AttributeError`; the
failure branch is unreachable under the STRONGER precondition that the
candidate id is present and the store is closed under the loop's
tag-object / commit-tree follow steps (presence of the resolved
candidates alone is not enough). -/
theorem claim_C10 :
    (object_read none = some (.ok none)
     ∧ ∀ (store : List Nat → Option GitObj) (sha fmt : List Nat) (follow : Bool) (fuel : Nat),
        store sha = none →
        objectFindGo store (fuel + 1) sha fmt follow = some (.error .attrNoneFmt))
    ∧ (∀ (store : List Nat → Option GitObj) (sha fmt : List Nat) (follow : Bool) (fuel : Nat),
        StoreClosed store → (store sha).isSome →
        objectFindGo store fuel sha fmt follow ≠ some (.error .attrNoneFmt)) := by
  refine ⟨⟨rfl, ?_⟩, ?_⟩
  · intro store sha fmt follow fuel hnone
    simp only [objectFindGo, hnone]
  · intro store sha fmt follow fuel hclosed hsome
    induction fuel generalizing sha with
    | zero =>
      simp [objectFindGo]
    | succ fuel ih =>
      obtain ⟨obj, hobj⟩ := Option.isSome_iff_exists.mp hsome
      cases obj with
      | blob data =>
        simp only [objectFindGo, hobj, fmtBytes]
        by_cases h1 : [98, 108, 111, 98] = fmt
        · rw [if_pos h1]
          simp
        · rw [if_neg h1]
          cases follow with
          | false => simp
          | true => simp
      | tree items =>
        simp only [objectFindGo, hobj, fmtBytes]
        by_cases h1 : [116, 114, 101, 101] = fmt
        · rw [if_pos h1]
          simp
        · rw [if_neg h1]
          cases follow with
          | false => simp
          | true => simp
      | commit kv =>
        simp only [objectFindGo, hobj, fmtBytes]
        by_cases h1 : [99, 111, 109, 109, 105, 116] = fmt
        · rw [if_pos h1]
          simp
        · rw [if_neg h1]
          cases follow with
          | false => simp
          | true =>
            simp only [Bool.not_true]
            rw [if_neg (by simp)]
            by_cases h2 : fmt = [116, 114, 101, 101]
            · rw [if_pos h2]
              cases hko : kvGet kv.pairs [116, 114, 101, 101] with
              | none => simp [hko]
              | some v =>
                cases v with
                | str s =>
                  simp only [hko]
                  exact ih s ((hclosed sha kv s).2 hobj hko)
                | lst l => simp [hko]
            · rw [if_neg h2]
              simp
      | tag kv =>
        simp only [objectFindGo, hobj, fmtBytes]
        by_cases h1 : [116, 97, 103] = fmt
        · rw [if_pos h1]
          simp
        · rw [if_neg h1]
          cases follow with
          | false => simp
          | true =>
            simp only [Bool.not_true]
            rw [if_neg (by simp)]
            cases hko : kvGet kv.pairs [111, 98, 106, 101, 99, 116] with
            | none => simp [hko]
            | some v =>
              cases v with
              | str s =>
                simp only [hko]
                exact ih s ((hclosed sha kv s).1 hobj hko)
              | lst l => simp [hko]

/-- C10 witness: a missing object makes the loop fail with the
attribute error; over a closed store with the id present the error
never occurs. -/
theorem claim_C10_witness :
    (object_read none = some (.ok none)
     ∧ objectFindGo (fun _ => none) (0 + 1) [97] [116, 114, 101, 101] true
        = some (.error .attrNoneFmt))
    ∧ objectFindGo (fun _ => some (.blob [])) 3 [97] [116, 114, 101, 101] true
        ≠ some (.error .attrNoneFmt) :=
  ⟨⟨claim_C10.1.1, claim_C10.1.2 (fun _ => none) [97] [116, 114, 101, 101] true 0 rfl⟩,
   claim_C10.2 (fun _ => some (.blob [])) [97] [116, 114, 101, 101] true 3
     (fun sha kv s => ⟨fun h => by simp at h, fun h => by simp at h⟩)
     (by decide)⟩

end DollarGit
